import Mathlib

/-!
# Shallow embedding of the UMI client core (src/lib/index.js)

This file models the SHA-256 hash, the address-version ("prefix") codec,
the Bech32 codec, the UTF-8 codec, and the `Address`, `PublicKey`,
`SecretKey` and `Transaction` records of the library, and proves the
spec's testable properties about them.

Modelling conventions:
* byte buffers (`Uint8Array`) are `List Nat` with every element `< 256`;
* JS strings are lists of UTF-16 code units (`List Nat`); case mapping is
  modelled on the ASCII range (the only range the codec accepts);
* JS 32-bit integer arithmetic is `Nat` arithmetic with explicit
  `% 4294967296` where the 32-bit truncation matters;
* numeric arguments of setters are modelled as `Int` (an exact JS number
  that passes the `Math.floor(x) === x` guard);
* functions that can `throw` return `Except String`, carrying the
  source's error message.

The JS `prefix` identifiers are rendered as `pfx` (`prefix` is a Lean
keyword); everything else keeps the source's names.
-/

namespace Umi

/-- `DataView.getUint16` (big-endian) on a byte list. -/
def getUint16 (b : List Nat) (off : Nat) : Nat :=
  b.getD off 0 * 256 + b.getD (off + 1) 0

/-- `DataView.getUint32` (big-endian) on a byte list. -/
def getUint32 (b : List Nat) (off : Nat) : Nat :=
  ((b.getD off 0 * 256 + b.getD (off + 1) 0) * 256 + b.getD (off + 2) 0) * 256
    + b.getD (off + 3) 0

/-- `DataView.setUint16` (big-endian): stores the low 16 bits of `v`. -/
def setUint16 (b : List Nat) (off v : Nat) : List Nat :=
  (b.set off (v / 256 % 256)).set (off + 1) (v % 256)

/-- `DataView.setUint32`/`setInt32` (big-endian): stores the low 32 bits of `v`. -/
def setUint32 (b : List Nat) (off v : Nat) : List Nat :=
  (((b.set off (v / 16777216 % 256)).set (off + 1) (v / 65536 % 256)).set
    (off + 2) (v / 256 % 256)).set (off + 3) (v % 256)

/-- `Uint8Array.prototype.set(src, off)`: overwrite `src.length` bytes at `off`. -/
def writeBytes (b : List Nat) (off : Nat) (src : List Nat) : List Nat :=
  b.take off ++ src ++ b.drop (off + src.length)

/-- A well-formed byte buffer of length `n`: every element is a byte. -/
def ByteBuf (n : Nat) (b : List Nat) : Prop :=
  b.length = n ∧ ∀ x ∈ b, x < 256

instance (n : Nat) (b : List Nat) : Decidable (ByteBuf n b) := by
  unfold ByteBuf; infer_instance

/-! ## SHA-256 (src/lib/index.js `sha256`, lines 1933-2015) -/

/-- The SHA-256 round constants `k`. -/
def sha256K : List Nat := [
  0x428A2F98, 0x71374491, 0xB5C0FBCF, 0xE9B5DBA5,
  0x3956C25B, 0x59F111F1, 0x923F82A4, 0xAB1C5ED5,
  0xD807AA98, 0x12835B01, 0x243185BE, 0x550C7DC3,
  0x72BE5D74, 0x80DEB1FE, 0x9BDC06A7, 0xC19BF174,
  0xE49B69C1, 0xEFBE4786, 0x0FC19DC6, 0x240CA1CC,
  0x2DE92C6F, 0x4A7484AA, 0x5CB0A9DC, 0x76F988DA,
  0x983E5152, 0xA831C66D, 0xB00327C8, 0xBF597FC7,
  0xC6E00BF3, 0xD5A79147, 0x06CA6351, 0x14292967,
  0x27B70A85, 0x2E1B2138, 0x4D2C6DFC, 0x53380D13,
  0x650A7354, 0x766A0ABB, 0x81C2C92E, 0x92722C85,
  0xA2BFE8A1, 0xA81A664B, 0xC24B8B70, 0xC76C51A3,
  0xD192E819, 0xD6990624, 0xF40E3585, 0x106AA070,
  0x19A4C116, 0x1E376C08, 0x2748774C, 0x34B0BCB5,
  0x391C0CB3, 0x4ED8AA4A, 0x5B9CCA4F, 0x682E6FF3,
  0x748F82EE, 0x78A5636F, 0x84C87814, 0x8CC70208,
  0x90BEFFFA, 0xA4506CEB, 0xBEF9A3F7, 0xC67178F2]

/-- Big-endian byte serialization of a 32-bit word. -/
def be32 (w : Nat) : List Nat :=
  [w / 16777216 % 256, w / 65536 % 256, w / 256 % 256, w % 256]

/-- 32-bit right rotation, as the JS `(x >>> n) | (x << (32 - n))` idiom
    applied to a value `< 2^32`. -/
def rotr32 (x n : Nat) : Nat :=
  (x >>> n) ||| ((x <<< (32 - n)) % 4294967296)

/-- Extend the 16-word message schedule: appends `count` further words
    (`w[i] = w[i-16] + s0 + w[i-7] + s1`, truncated to 32 bits by the
    `Int32Array` store). -/
def sha256Extend : Nat → List Nat → List Nat
  | 0, w => w
  | count + 1, w =>
    let i := w.length
    let s0 := rotr32 (w.getD (i - 15) 0) 7 ^^^ rotr32 (w.getD (i - 15) 0) 18
      ^^^ (w.getD (i - 15) 0 >>> 3)
    let s1 := rotr32 (w.getD (i - 2) 0) 17 ^^^ rotr32 (w.getD (i - 2) 0) 19
      ^^^ (w.getD (i - 2) 0 >>> 10)
    sha256Extend count
      (w ++ [(w.getD (i - 16) 0 + s0 + w.getD (i - 7) 0 + s1) % 4294967296])

/-- The eight 32-bit working variables `a..h` of the compression loop. -/
structure Sha256State where
  a : Nat
  b : Nat
  c : Nat
  d : Nat
  e : Nat
  f : Nat
  g : Nat
  h : Nat

/-- One round of the SHA-256 compression loop. All consumers of the JS
    working variables read them through 32-bit coercions, so keeping each
    variable reduced mod `2^32` is bit-faithful to the source. -/
def sha256Round (st : Sha256State) (ki wi : Nat) : Sha256State :=
  let S0 := rotr32 st.a 2 ^^^ rotr32 st.a 13 ^^^ rotr32 st.a 22
  let Ma := (st.a &&& st.b) ^^^ (st.a &&& st.c) ^^^ (st.b &&& st.c)
  let t2 := S0 + Ma
  let S1 := rotr32 st.e 6 ^^^ rotr32 st.e 11 ^^^ rotr32 st.e 25
  let Ch := (st.e &&& st.f) ^^^ ((st.e ^^^ 4294967295) &&& st.g)
  let t1 := st.h + S1 + Ch + ki + wi
  { a := (t1 + t2) % 4294967296, b := st.a, c := st.b, d := st.c,
    e := (st.d + t1) % 4294967296, f := st.e, g := st.f, h := st.g }

/-- Compress one 64-byte block into the hash state `hh` (8 words). -/
def sha256Compress (hh : List Nat) (block : List Nat) : List Nat :=
  let w := sha256Extend 48 ((List.range 16).map fun i => getUint32 block (i * 4))
  let st0 : Sha256State :=
    ⟨hh.getD 0 0, hh.getD 1 0, hh.getD 2 0, hh.getD 3 0,
     hh.getD 4 0, hh.getD 5 0, hh.getD 6 0, hh.getD 7 0⟩
  let st := (sha256K.zip w).foldl (fun st p => sha256Round st p.1 p.2) st0
  [(hh.getD 0 0 + st.a) % 4294967296, (hh.getD 1 0 + st.b) % 4294967296,
   (hh.getD 2 0 + st.c) % 4294967296, (hh.getD 3 0 + st.d) % 4294967296,
   (hh.getD 4 0 + st.e) % 4294967296, (hh.getD 5 0 + st.f) % 4294967296,
   (hh.getD 6 0 + st.g) % 4294967296, (hh.getD 7 0 + st.h) % 4294967296]

/-- Fold the compression function over the (padded) message, 64 bytes at
    a time. The `fuel` argument only drives the structural recursion; the
    initial `m.length` supplied by `sha256Blocks` always suffices, since
    each step consumes 64 bytes. -/
def sha256BlocksGo : Nat → List Nat → List Nat → List Nat
  | 0, hh, _ => hh
  | fuel + 1, hh, m =>
    if m = [] then hh
    else sha256BlocksGo fuel (sha256Compress hh (m.take 64)) (m.drop 64)

/-- The `while`-style block loop of the source's `sha256`. -/
def sha256Blocks (hh : List Nat) (m : List Nat) : List Nat :=
  sha256BlocksGo m.length hh m

/-- SHA-256 of a byte sequence, as implemented by the source: pad with
    `0x80`, zeros and the 32-bit big-endian bit length (the source writes
    only the low 32 bits of the length), then compress per block. -/
def sha256 (message : List Nat) : List Nat :=
  let l0 := message.length + 8
  let l := l0 + (64 - l0 % 64)
  let m := message ++ 0x80 :: (List.replicate (l - message.length - 5) 0
    ++ be32 (message.length * 8 % 4294967296))
  let hh := sha256Blocks
    [0x6A09E667, 0xBB67AE85, 0x3C6EF372, 0xA54FF53A,
     0x510E527F, 0x9B05688C, 0x1F83D9AB, 0x5BE0CD19] m
  hh.flatMap be32

/-! ## Address-version codec (`versionToPrefix` / `prefixToVersion`,
src/lib/index.js lines 1866-1923). The JS `prefix` is rendered `pfx`. -/

/-- The UTF-16 units of the string `"genesis"`. -/
def genesisChars : List Nat := [103, 101, 110, 101, 115, 105, 115]

/-- Models `versionToPrefix`: numeric version to prefix string. -/
def versionToPfx (version : Nat) : Except String (List Nat) :=
  if version = 0 then .ok genesisChars
  else if version &&& 0x8000 = 0x8000 then
    .error "incorrect version - first bit must be zero"
  else
    let a := (version &&& 0x7C00) >>> 10
    let b := (version &&& 0x03E0) >>> 5
    let c := version &&& 0x001F
    if a < 1 ∨ a > 26 then .error "incorrect version - first char"
    else if b < 1 ∨ b > 26 then .error "incorrect version - second char"
    else if c < 1 ∨ c > 26 then .error "incorrect version - third char"
    else .ok [a + 96, b + 96, c + 96]

/-- Models `prefixToVersion`: prefix string to numeric version.
    (JS `charCodeAt(i) - 96` can be negative; `Nat` subtraction clamps at
    `0`, which triggers the same `< 1` error branch, so the failure and
    success behaviour coincide.) -/
def pfxToVersion (pfx : List Nat) : Except String Nat :=
  if pfx = genesisChars then .ok 0
  else if pfx.length ≠ 3 then .error "prefix must be 3 bytes ling"
  else
    let a := pfx.getD 0 0 - 96
    let b := pfx.getD 1 0 - 96
    let c := pfx.getD 2 0 - 96
    if a < 1 ∨ a > 26 then .error "incorrect prefix - first char"
    else if b < 1 ∨ b > 26 then .error "incorrect prefix - second char"
    else if c < 1 ∨ c > 26 then .error "incorrect prefix - third char"
    else .ok ((a <<< 10) + (b <<< 5) + c)

/-! ## UTF-8 codec (`Utf8Encode` / `Utf8Decode`, lines 2023-2064) -/

/-- Models `Utf8Encode`: UTF-16 code units to UTF-8 bytes. A lone
    trailing surrogate reads the out-of-range unit as `0` (JS `NaN & x`). -/
def Utf8Encode : List Nat → List Nat
  | [] => []
  | chr :: text =>
    if chr < 0x80 then chr :: Utf8Encode text
    else if chr < 0x800 then
      (0xc0 ||| (chr >>> 6)) :: (0x80 ||| (chr &&& 0x3f)) :: Utf8Encode text
    else if chr < 0xd800 ∨ chr ≥ 0xe000 then
      (0xe0 ||| (chr >>> 12)) :: (0x80 ||| ((chr >>> 6) &&& 0x3f)) ::
        (0x80 ||| (chr &&& 0x3f)) :: Utf8Encode text
    else
      match text with
      | [] =>
        let chr2 := 0x10000 + ((chr &&& 0x3ff) <<< 10)
        [0xf0 ||| (chr2 >>> 18), 0x80 ||| ((chr2 >>> 12) &&& 0x3f),
         0x80 ||| ((chr2 >>> 6) &&& 0x3f), 0x80 ||| (chr2 &&& 0x3f)]
      | c2 :: rest =>
        let chr2 := 0x10000 + ((chr &&& 0x3ff) <<< 10) + (c2 &&& 0x3ff)
        (0xf0 ||| (chr2 >>> 18)) :: (0x80 ||| ((chr2 >>> 12) &&& 0x3f)) ::
          (0x80 ||| ((chr2 >>> 6) &&& 0x3f)) :: (0x80 ||| (chr2 &&& 0x3f)) ::
          Utf8Encode rest

/-- Models `Utf8Decode`: UTF-8 bytes to UTF-16 code units. Out-of-range
    reads are `0` (JS `undefined & x`); the 4-byte branch's `- 0x10000` is
    `Nat` subtraction, which agrees with the source on every well-formed
    sequence (malformed 4-byte sequences below `0x10000` never arise from
    `Utf8Encode`). -/
def Utf8Decode : List Nat → List Nat
  | [] => []
  | chr :: bytes =>
    if chr < 0x80 then chr :: Utf8Decode bytes
    else if chr > 0xBF ∧ chr < 0xE0 then
      match bytes with
      | [] => [((chr &&& 0x1F) <<< 6)]
      | b1 :: rest =>
        (((chr &&& 0x1F) <<< 6) ||| (b1 &&& 0x3F)) :: Utf8Decode rest
    else if chr > 0xDF ∧ chr < 0xF0 then
      match bytes with
      | [] => [((chr &&& 0x0F) <<< 12)]
      | [b1] => [((chr &&& 0x0F) <<< 12) ||| ((b1 &&& 0x3F) <<< 6)]
      | b1 :: b2 :: rest =>
        (((chr &&& 0x0F) <<< 12) ||| ((b1 &&& 0x3F) <<< 6) ||| (b2 &&& 0x3F)) ::
          Utf8Decode rest
    else
      match bytes with
      | b1 :: b2 :: b3 :: rest =>
        let charCode := (((chr &&& 0x07) <<< 18) ||| ((b1 &&& 0x3F) <<< 12) |||
          ((b2 &&& 0x3F) <<< 6) ||| (b3 &&& 0x3F)) - 0x10000
        ((charCode >>> 10) ||| 0xD800) :: ((charCode &&& 0x03FF) ||| 0xDC00) ::
          Utf8Decode rest
      | bytes =>
        let charCode := (((chr &&& 0x07) <<< 18) ||| ((bytes.getD 0 0 &&& 0x3F) <<< 12) |||
          ((bytes.getD 1 0 &&& 0x3F) <<< 6) ||| (bytes.getD 2 0 &&& 0x3F)) - 0x10000
        [(charCode >>> 10) ||| 0xD800, (charCode &&& 0x03FF) ||| 0xDC00]

/-! ## ASCII case mapping (the JS `toLowerCase` / `toUpperCase`,
restricted to the ASCII range; every character the Bech32 codec accepts
is ASCII). -/

/-- ASCII `String.prototype.toLowerCase`. -/
def toLowerCase (s : List Nat) : List Nat :=
  s.map fun c => if 65 ≤ c ∧ c ≤ 90 then c + 32 else c

/-- ASCII `String.prototype.toUpperCase`. -/
def toUpperCase (s : List Nat) : List Nat :=
  s.map fun c => if 97 ≤ c ∧ c ≤ 122 then c - 32 else c

/-- `String.prototype.lastIndexOf` for a single UTF-16 unit. `none`
    models the JS `-1`. -/
def lastIndexOf (s : List Nat) (c : Nat) : Option Nat :=
  match s.reverse.findIdx? (· = c) with
  | none => none
  | some i => some (s.length - 1 - i)

/-! ## Bech32 codec (class `Bech32`, lines 2070-2291) -/

namespace Bech32

/-- The Bech32 alphabet `qpzry9x8gf2tvdw0s3jn54khce6mua7l` as UTF-16 units. -/
def ALPHABET : List Nat :=
  [113, 112, 122, 114, 121, 57, 120, 56, 103, 102, 50, 116, 118, 100, 119, 48,
   115, 51, 106, 110, 53, 52, 107, 104, 99, 101, 54, 109, 117, 97, 55, 108]

/-- The inverse `_ALPHABET_MAP`, keyed by UTF-16 unit. -/
def ALPHABET_MAP : Nat → Option Nat
  | 48 => some 15
  | 50 => some 10
  | 51 => some 17
  | 52 => some 21
  | 53 => some 20
  | 54 => some 26
  | 55 => some 30
  | 56 => some 7
  | 57 => some 5
  | 113 => some 0
  | 112 => some 1
  | 122 => some 2
  | 114 => some 3
  | 121 => some 4
  | 120 => some 6
  | 103 => some 8
  | 102 => some 9
  | 116 => some 11
  | 118 => some 12
  | 100 => some 13
  | 119 => some 14
  | 115 => some 16
  | 106 => some 18
  | 110 => some 19
  | 107 => some 22
  | 104 => some 23
  | 99 => some 24
  | 101 => some 25
  | 109 => some 27
  | 117 => some 28
  | 97 => some 29
  | 108 => some 31
  | _ => none

/-- `_polymodStep`: one step of the BCH checksum. The JS
    `-((b >> i) & 1) & C` two's-complement trick selects the constant
    when the bit is set. -/
def polymodStep (pre : Nat) : Nat :=
  let b := pre >>> 25
  ((pre &&& 0x1FFFFFF) <<< 5) ^^^
    (if b &&& 1 = 1 then 0x3b6a57b2 else 0) ^^^
    (if (b >>> 1) &&& 1 = 1 then 0x26508e6d else 0) ^^^
    (if (b >>> 2) &&& 1 = 1 then 0x1ea119fa else 0) ^^^
    (if (b >>> 3) &&& 1 = 1 then 0x3d4233dd else 0) ^^^
    (if (b >>> 4) &&& 1 = 1 then 0x2a1462b3 else 0)

/-- `_prefixChk`: fold the checksum over the prefix (high 3 bits of each
    character, a zero step, then the low 5 bits of each character). -/
def pfxChk (pfx : List Nat) : Except String Nat := do
  let chk ← pfx.foldlM (fun chk c =>
    if c < 33 ∨ c > 126 then Except.error "Invalid prefix"
    else Except.ok (polymodStep chk ^^^ (c >>> 5))) 1
  Except.ok (pfx.foldl (fun chk v => polymodStep chk ^^^ (v &&& 0x1f)) (polymodStep chk))

/-- The inner `while (bits >= outBits)` loop of `_convert`, with a fuel
    argument driving the structural recursion (each iteration lowers
    `bits` by `outBits ≥ 1`, so `fuel = bits` always suffices). -/
def pushWordsGo (outBits maxV value : Nat) : Nat → Nat → List Nat × Nat
  | 0, bits => ([], bits)
  | fuel + 1, bits =>
    if 0 < outBits ∧ outBits ≤ bits then
      let w := (value >>> (bits - outBits)) &&& maxV
      let (ws, b) := pushWordsGo outBits maxV value fuel (bits - outBits)
      (w :: ws, b)
    else ([], bits)

/-- The inner `while (bits >= outBits)` loop of `_convert`: emit 5- or
    8-bit groups from the top of the pending `value`/`bits` buffer. -/
def pushWords (outBits maxV value : Nat) (bits : Nat) : List Nat × Nat :=
  pushWordsGo outBits maxV value bits bits

/-- The main loop of `_convert`: shift each datum into the pending buffer
    (the JS `<<`/`|` are 32-bit, hence the `% 4294967296`) and emit
    full output groups. Returns (output, final value, final bits). -/
def convertLoop (inBits outBits maxV : Nat) : List Nat → Nat → Nat → List Nat × Nat × Nat
  | [], value, bits => ([], value, bits)
  | d :: data, value, bits =>
    let value := ((value <<< inBits) ||| d) % 4294967296
    let bits := bits + inBits
    let (ws, bits2) := pushWords outBits maxV value bits
    let (ws2, v3, b3) := convertLoop inBits outBits maxV data value bits2
    (ws ++ ws2, v3, b3)

/-- `_convert`: regroup a bit stream between widths, with the source's
    padding rules. -/
def convert (data : List Nat) (inBits outBits : Nat) (pad : Bool) :
    Except String (List Nat) :=
  let maxV := (1 <<< outBits) - 1
  let (result, value, bits) := convertLoop inBits outBits maxV data 0 0
  if pad then
    if bits > 0 then .ok (result ++ [(value <<< (outBits - bits)) &&& maxV])
    else .ok result
  else if bits ≥ inBits then .error "Excess padding"
  else if (value <<< (outBits - bits)) &&& maxV ≠ 0 then .error "Non-zero padding"
  else .ok result

/-- `_encode`: assemble `prefix ++ "1" ++ data ++ checksum` and thread the
    BCH checksum. `49` is the separator `'1'`. -/
def encodeInner (pfx : List Nat) (words : List Nat) : Except String (List Nat) := do
  let pfx := toLowerCase pfx
  let chk0 ← pfxChk pfx
  let st := words.foldl
    (fun (st : Nat × List Nat) word =>
      (polymodStep st.1 ^^^ word, st.2 ++ [ALPHABET.getD word 0]))
    (chk0, pfx ++ [49])
  let chk := polymodStep (polymodStep (polymodStep (polymodStep (polymodStep
    (polymodStep st.1)))))
  let chk := chk ^^^ 1
  Except.ok (st.2 ++ (List.range 6).map fun i =>
    ALPHABET.getD ((chk >>> ((5 - i) * 5)) &&& 0x1f) 0)

/-- `encode`: version from the first two bytes (big-endian) through the
    prefix codec, remaining 32 bytes regrouped 8→5 with padding. -/
def encode (bytes : List Nat) : Except String (List Nat) := do
  let pfx ← versionToPfx (getUint16 bytes 0)
  let words ← convert (bytes.drop 2) 8 5 true
  encodeInner pfx words

/-- The decoded form returned by `_decode`. -/
structure Raw where
  pfx : List Nat
  words : List Nat
deriving DecidableEq

/-- The character loop of `_decode`: map each data character back through
    the alphabet, thread the checksum, and collect all but the last six
    characters as data words. -/
def decodeLoop (len : Nat) : List Nat → Nat → Nat → List Nat →
    Except String (Nat × List Nat)
  | [], _, chk, words => .ok (chk, words)
  | c :: rest, i, chk, words =>
    match ALPHABET_MAP c with
    | none => .error "Unknown character"
    | some v =>
      let chk := polymodStep chk ^^^ v
      if i + 6 ≥ len then decodeLoop len rest (i + 1) chk words
      else decodeLoop len rest (i + 1) chk (words ++ [v])

/-- The body of `_decode` after the case normalization: split on the last
    separator `'1'` (code 49), check the prefix and checksum. -/
def decodeCore (str : List Nat) : Except String Raw :=
  match lastIndexOf str 49 with
  | none => .error "No separator character"
  | some split =>
    if split = 0 then .error "Missing prefix"
    else
      let pfx := str.take split
      let wordChars := str.drop (split + 1)
      if wordChars.length < 6 then .error "Data too short"
      else do
        let chk0 ← pfxChk pfx
        let (chk, words) ← decodeLoop wordChars.length wordChars 0 chk0 []
        if chk ≠ 1 then .error "Invalid checksum"
        else .ok ⟨pfx, words⟩

/-- `_decode`: reject mixed-case input, lower-case, then decode. -/
def decodeInner (str : List Nat) : Except String Raw :=
  if str ≠ toLowerCase str ∧ str ≠ toUpperCase str then .error "Mixed-case string"
  else decodeCore (toLowerCase str)

/-- `decode`: decoded words regrouped 5→8 with strict padding checks,
    exactly 32 bytes, then the two version bytes are prepended. -/
def decode (bech32 : List Nat) : Except String (List Nat) := do
  let raw ← decodeInner bech32
  let bytes ← convert raw.words 5 8 false
  if bytes.length ≠ 32 then .error "invalid data length"
  else do
    let v ← pfxToVersion raw.pfx
    .ok (setUint16 (writeBytes (List.replicate 34 0) 2 bytes) 0 v)

end Bech32

/-! ## PublicKey / SecretKey (lines 2296-2462). The Ed25519 primitive is
only needed here through `publicKeyFromSecretKey`, which returns the
trailing 32 bytes of the 64-byte secret key. -/

/-- `PublicKey`: a 32-byte buffer. -/
structure PublicKey where
  bytes : List Nat
deriving DecidableEq

/-- The `PublicKey` constructor's length check. -/
def PublicKey.fromBytes (bytes : List Nat) : Except String PublicKey :=
  if bytes.length ≠ 32 then .error "bytes must be 32 bytes length"
  else .ok ⟨bytes⟩

/-- `signatureLength` (= `Ed25519.SIGNATURE_BYTES`). -/
def PublicKey.SIGNATURE_LENGTH : Nat := 64

/-- `SecretKey`: a 64-byte buffer. -/
structure SecretKey where
  bytes : List Nat
deriving DecidableEq

/-- The `SecretKey` constructor's length check. -/
def SecretKey.fromBytes (bytes : List Nat) : Except String SecretKey :=
  if bytes.length ≠ 64 then .error "bytes length must be 64 bytes"
  else .ok ⟨bytes⟩

/-- `SecretKey#publicKey`, via `Ed25519#publicKeyFromSecretKey`: the
    trailing 32 bytes of the secret key. -/
def SecretKey.publicKey (k : SecretKey) : PublicKey :=
  ⟨(k.bytes.drop 32).take 32⟩

/-! ## Address (class `Address`, lines 2467-2649) -/

/-- `Address`: a 34-byte buffer (2-byte version + 32-byte public key). -/
structure Address where
  bytes : List Nat
deriving DecidableEq

/-- `Address.Genesis`. -/
def Address.Genesis : Nat := 0

/-- `Address.Umi`. -/
def Address.Umi : Nat := 21929

/-- `Address.LENGTH`. -/
def Address.LENGTH : Nat := 34

/-- The `version` getter: big-endian u16 at offset 0. -/
def Address.version (a : Address) : Nat := getUint16 a.bytes 0

/-- The `version` setter: validate through `versionToPrefix`, then store
    `version & 0x7FFF` (high bit masked). -/
def Address.setVersion (a : Address) (version : Nat) : Except String Address := do
  let _ ← versionToPfx version
  .ok ⟨setUint16 a.bytes 0 (version &&& 0x7FFF)⟩

/-- `new Address()`: 34 zero bytes with `version = Address.Umi`. -/
def Address.create : Address :=
  ⟨setUint16 (List.replicate 34 0) 0 (Address.Umi &&& 0x7FFF)⟩

/-- `new Address(bytes)`: copy 34 raw bytes, validating only the length. -/
def Address.fromBytes (bytes : List Nat) : Except String Address :=
  if bytes.length ≠ 34 then .error "bytes length must be 34 bytes"
  else .ok ⟨bytes⟩

/-- The `publicKey` getter: bytes 2..34 through the `PublicKey` constructor. -/
def Address.publicKey (a : Address) : Except String PublicKey :=
  PublicKey.fromBytes (a.bytes.drop 2)

/-- The `publicKey` setter: write the key at offset 2. -/
def Address.setPublicKey (a : Address) (publicKey : PublicKey) : Address :=
  ⟨writeBytes a.bytes 2 publicKey.bytes⟩

/-- The `prefix` getter. -/
def Address.pfx (a : Address) : Except String (List Nat) :=
  versionToPfx a.version

/-- The `prefix` setter: `this.version = prefixToVersion(prefix)`. -/
def Address.setPfx (a : Address) (pfx : List Nat) : Except String Address := do
  let v ← pfxToVersion pfx
  a.setVersion v

/-- The `bech32` getter. -/
def Address.bech32 (a : Address) : Except String (List Nat) :=
  Bech32.encode a.bytes

/-- The `bech32` setter: decode, then overwrite all 34 bytes. -/
def Address.setBech32 (a : Address) (bech32 : List Nat) : Except String Address := do
  let b ← Bech32.decode bech32
  .ok ⟨writeBytes a.bytes 0 b⟩

/-- `Address.fromBech32`. -/
def Address.fromBech32 (bech32 : List Nat) : Except String Address :=
  Address.create.setBech32 bech32

/-- `Address.fromKey`: from a secret key (left) or a public key (right),
    matching the source's `instanceof` dispatch order. -/
def Address.fromKey : SecretKey ⊕ PublicKey → Address
  | .inl key => Address.create.setPublicKey key.publicKey
  | .inr key => Address.create.setPublicKey key

/-! ## Transaction (class `Transaction`, lines 30-735) -/

/-- `Transaction`: the 150-byte buffer plus the fields-set map
    (`_fieldsMap`, modelled as the list of set field names). -/
structure Transaction where
  bytes : List Nat
  fieldsMap : List String
deriving DecidableEq

/-- `Transaction.LENGTH`. -/
def Transaction.LENGTH : Nat := 150

/-- `Transaction.Genesis`. -/
def Transaction.Genesis : Nat := 0

/-- `Transaction.Basic`. -/
def Transaction.Basic : Nat := 1

/-- `Transaction.CreateStructure`. -/
def Transaction.CreateStructure : Nat := 2

/-- `Transaction.UpdateStructure`. -/
def Transaction.UpdateStructure : Nat := 3

/-- `Transaction.UpdateProfitAddress`. -/
def Transaction.UpdateProfitAddress : Nat := 4

/-- `Transaction.UpdateFeeAddress`. -/
def Transaction.UpdateFeeAddress : Nat := 5

/-- `Transaction.CreateTransitAddress`. -/
def Transaction.CreateTransitAddress : Nat := 6

/-- `Transaction.DeleteTransitAddress`. -/
def Transaction.DeleteTransitAddress : Nat := 7

/-- `_checkFields`: error out at the first field not yet set. -/
def Transaction.checkFields (t : Transaction) (fields : List String) :
    Except String Unit :=
  match fields.find? (fun f => !t.fieldsMap.contains f) with
  | some f => .error (f ++ " must be set")
  | none => .ok ()

/-- `_setFields`. -/
def Transaction.setFields (t : Transaction) (fields : List String) : Transaction :=
  { t with fieldsMap := t.fieldsMap ++ fields }

/-- `new Transaction()`: 150 zero bytes, no field set. -/
def Transaction.create : Transaction :=
  ⟨List.replicate 150 0, []⟩

/-- `new Transaction(bytes)`: copy 150 bytes and mark all ten fields set. -/
def Transaction.fromBytes (bytes : List Nat) : Except String Transaction :=
  if bytes.length ≠ 150 then .error "bytes length must be 150 bytes"
  else .ok (Transaction.create.setFields ["version", "sender", "recipient",
    "value", "prefix", "name", "profitPercent", "feePercent", "nonce",
    "signature"] |> fun t => ⟨bytes, t.fieldsMap⟩)

/-- The `hash` getter: SHA-256 of all 150 bytes. -/
def Transaction.hash (t : Transaction) : List Nat :=
  sha256 t.bytes

/-- The `version` getter. -/
def Transaction.version (t : Transaction) : Except String Nat := do
  t.checkFields ["version"]
  .ok (t.bytes.getD 0 0)

/-- The `version` setter: rejects a second write and any version outside
    `Genesis..DeleteTransitAddress`. The argument is an exact integer
    (the JS `typeof`/`Math.floor` guards). -/
def Transaction.setVersion (t : Transaction) (version : Int) :
    Except String Transaction :=
  if t.fieldsMap.contains "version" then .error "could not update version"
  else if version < (Transaction.Genesis : Int) ∨
      version > (Transaction.DeleteTransitAddress : Int) then
    .error "incorrect version"
  else .ok ((Transaction.setFields ⟨t.bytes.set 0 version.toNat, t.fieldsMap⟩ ["version"]))

/-- The `sender` getter: bytes 1..35 as an `Address`. -/
def Transaction.sender (t : Transaction) : Except String Address := do
  t.checkFields ["sender"]
  Address.fromBytes ((t.bytes.drop 1).take 34)

/-- The `sender` setter: genesis sender iff genesis transaction. -/
def Transaction.setSender (t : Transaction) (address : Address) :
    Except String Transaction := do
  t.checkFields ["version"]
  let v := t.bytes.getD 0 0
  if v = Transaction.Genesis ∧ address.version ≠ Address.Genesis then
    .error "address version must be genesis"
  else if v ≠ Transaction.Genesis ∧ address.version = Address.Genesis then
    .error "address version must not be genesis"
  else .ok (Transaction.setFields ⟨writeBytes t.bytes 1 address.bytes, t.fieldsMap⟩ ["sender"])

/-- The `recipient` getter. -/
def Transaction.recipient (t : Transaction) : Except String Address := do
  t.checkFields ["version"]
  let v := t.bytes.getD 0 0
  if v = Transaction.CreateStructure ∨ v = Transaction.UpdateStructure then
    .error "recipient unavailable for this transaction type"
  else do
    t.checkFields ["recipient"]
    Address.fromBytes ((t.bytes.drop 35).take 34)

/-- The `recipient` setter: unavailable for the structure variants; never
    genesis; umi required for Genesis and forbidden outside Genesis/Basic. -/
def Transaction.setRecipient (t : Transaction) (address : Address) :
    Except String Transaction := do
  t.checkFields ["version"]
  let v := t.bytes.getD 0 0
  if v = Transaction.CreateStructure ∨ v = Transaction.UpdateStructure then
    .error "recipient unavailable for this transaction type"
  else if address.version = Address.Genesis then
    .error "recipient version must not be genesis"
  else if v = Transaction.Genesis ∧ address.version ≠ Address.Umi then
    .error "recipient version must be umi"
  else if v ≠ Transaction.Genesis ∧ v ≠ Transaction.Basic ∧
      address.version = Address.Umi then
    .error "recipient version must not be umi"
  else .ok (Transaction.setFields ⟨writeBytes t.bytes 35 address.bytes, t.fieldsMap⟩
    ["recipient"])

/-- The `value` getter: 8 bytes big-endian at 69, Genesis/Basic only,
    failing when the stored value exceeds `Number.MAX_SAFE_INTEGER`. -/
def Transaction.value (t : Transaction) : Except String Nat := do
  t.checkFields ["version"]
  let v := t.bytes.getD 0 0
  if v ≠ Transaction.Genesis ∧ v ≠ Transaction.Basic then
    .error "value unavailable for this transaction type"
  else do
    t.checkFields ["value"]
    if getUint16 t.bytes 69 > 0x001f then .error "value is not safe integer"
    else .ok (getUint32 t.bytes 69 * 4294967296 + getUint32 t.bytes 73)

/-- The `value` setter: Genesis/Basic only, integer in
    `[1, 9007199254740991]`, stored as two big-endian 32-bit halves. -/
def Transaction.setValue (t : Transaction) (value : Int) :
    Except String Transaction := do
  t.checkFields ["version"]
  let v := t.bytes.getD 0 0
  if v ≠ Transaction.Genesis ∧ v ≠ Transaction.Basic then
    .error "value unavailable for this transaction type"
  else if value < 1 ∨ value > 9007199254740991 then
    .error "value must be between 1 and 9007199254740991"
  else
    let n := value.toNat
    .ok (Transaction.setFields
      ⟨setUint32 (setUint32 t.bytes 73 (n % 4294967296)) 69
        ((n - n % 4294967296) / 4294967296), t.fieldsMap⟩ ["value"])

/-- The transaction `prefix` getter (structure variants only). -/
def Transaction.pfx (t : Transaction) : Except String (List Nat) := do
  t.checkFields ["version"]
  let v := t.bytes.getD 0 0
  if v ≠ Transaction.CreateStructure ∧ v ≠ Transaction.UpdateStructure then
    .error "prefix unavailable for this transaction type"
  else do
    t.checkFields ["prefix"]
    versionToPfx (getUint16 t.bytes 35)

/-- The transaction `prefix` setter (structure variants only). -/
def Transaction.setPfx (t : Transaction) (pfx : List Nat) :
    Except String Transaction := do
  t.checkFields ["version"]
  let v := t.bytes.getD 0 0
  if v ≠ Transaction.CreateStructure ∧ v ≠ Transaction.UpdateStructure then
    .error "prefix unavailable for this transaction type"
  else do
    let pv ← pfxToVersion pfx
    .ok (Transaction.setFields ⟨setUint16 t.bytes 35 pv, t.fieldsMap⟩ ["prefix"])

/-- The `name` getter: length byte at 41, UTF-8 payload from 42. -/
def Transaction.name (t : Transaction) : Except String (List Nat) := do
  t.checkFields ["version"]
  let v := t.bytes.getD 0 0
  if v ≠ Transaction.CreateStructure ∧ v ≠ Transaction.UpdateStructure then
    .error "name unavailable for this transaction type"
  else do
    t.checkFields ["name"]
    .ok (Utf8Decode ((t.bytes.drop 42).take (t.bytes.getD 41 0)))

/-- The `name` setter: UTF-8 encoding must be at most 35 bytes. -/
def Transaction.setName (t : Transaction) (name : List Nat) :
    Except String Transaction := do
  t.checkFields ["version"]
  let v := t.bytes.getD 0 0
  if v ≠ Transaction.CreateStructure ∧ v ≠ Transaction.UpdateStructure then
    .error "name unavailable for this transaction type"
  else
    let txt := Utf8Encode name
    if txt.length ≥ 36 then .error "name is too long"
    else .ok (Transaction.setFields
      ⟨writeBytes (t.bytes.set 41 txt.length) 42 txt, t.fieldsMap⟩ ["name"])

/-- The `profitPercent` getter. -/
def Transaction.profitPercent (t : Transaction) : Except String Nat := do
  t.checkFields ["version"]
  let v := t.bytes.getD 0 0
  if v ≠ Transaction.CreateStructure ∧ v ≠ Transaction.UpdateStructure then
    .error "profitPercent unavailable for this transaction type"
  else do
    t.checkFields ["profitPercent"]
    .ok (getUint16 t.bytes 37)

/-- The `profitPercent` setter: integer in `[100, 500]`. -/
def Transaction.setProfitPercent (t : Transaction) (percent : Int) :
    Except String Transaction := do
  t.checkFields ["version"]
  let v := t.bytes.getD 0 0
  if v ≠ Transaction.CreateStructure ∧ v ≠ Transaction.UpdateStructure then
    .error "profitPercent unavailable for this transaction type"
  else if percent < 100 ∨ percent > 500 then
    .error "percent value must be between 100 and 500"
  else .ok (Transaction.setFields ⟨setUint16 t.bytes 37 percent.toNat, t.fieldsMap⟩
    ["profitPercent"])

/-- The `feePercent` getter. -/
def Transaction.feePercent (t : Transaction) : Except String Nat := do
  t.checkFields ["version"]
  let v := t.bytes.getD 0 0
  if v ≠ Transaction.CreateStructure ∧ v ≠ Transaction.UpdateStructure then
    .error "feePercent unavailable for this transaction type"
  else do
    t.checkFields ["feePercent"]
    .ok (getUint16 t.bytes 39)

/-- The `feePercent` setter: integer in `[0, 2000]`. -/
def Transaction.setFeePercent (t : Transaction) (percent : Int) :
    Except String Transaction := do
  t.checkFields ["version"]
  let v := t.bytes.getD 0 0
  if v ≠ Transaction.CreateStructure ∧ v ≠ Transaction.UpdateStructure then
    .error "feePercent unavailable for this transaction type"
  else if percent < 0 ∨ percent > 2000 then
    .error "percent value must be between 100 and 500"
  else .ok (Transaction.setFields ⟨setUint16 t.bytes 39 percent.toNat, t.fieldsMap⟩
    ["feePercent"])

/-- The `nonce` getter: 8 bytes big-endian at 77, failing when the stored
    value exceeds `Number.MAX_SAFE_INTEGER`. -/
def Transaction.nonce (t : Transaction) : Except String Nat := do
  t.checkFields ["nonce"]
  if getUint16 t.bytes 77 > 0x001f then .error "nonce is not safe integer"
  else .ok (getUint32 t.bytes 77 * 4294967296 + getUint32 t.bytes 81)

/-- The `nonce` setter: integer in `[0, 9007199254740991]`, stored as two
    big-endian 32-bit halves. Note: the source performs no `_checkFields`
    here. -/
def Transaction.setNonce (t : Transaction) (nonce : Int) :
    Except String Transaction :=
  if nonce < 0 ∨ nonce > 9007199254740991 then
    .error "nonce value must be between 0 and 9007199254740991"
  else
    let n := nonce.toNat
    .ok (Transaction.setFields
      ⟨setUint32 (setUint32 t.bytes 81 (n % 4294967296)) 77
        ((n - n % 4294967296) / 4294967296), t.fieldsMap⟩ ["nonce"])

/-- The `signature` getter: 64 bytes at 85 (the length is read off the
    sender's public key, so the sender getter runs first). -/
def Transaction.signature (t : Transaction) : Except String (List Nat) := do
  t.checkFields ["signature"]
  let _ ← t.sender
  .ok ((t.bytes.drop 85).take PublicKey.SIGNATURE_LENGTH)

/-- The `signature` setter: requires `version` and `sender`, 64 bytes at 85. -/
def Transaction.setSignature (t : Transaction) (signature : List Nat) :
    Except String Transaction := do
  t.checkFields ["version", "sender"]
  let _ ← t.sender
  if signature.length ≠ PublicKey.SIGNATURE_LENGTH then
    .error "incorrect signature length"
  else .ok (Transaction.setFields ⟨writeBytes t.bytes 85 signature, t.fieldsMap⟩
    ["signature"])

/-! ## The claim-side validity predicate for prefix versions -/

/-- A version whose prefix rendering is legal, in the spec's words: `0`, or
    all three 5-bit fields in `1..26` with the high bit zero. -/
def legalPfxVersion (v : Nat) : Prop :=
  v = 0 ∨ (v / 32768 % 2 = 0 ∧
    (1 ≤ v / 1024 % 32 ∧ v / 1024 % 32 ≤ 26) ∧
    (1 ≤ v / 32 % 32 ∧ v / 32 % 32 ≤ 26) ∧
    (1 ≤ v % 32 ∧ v % 32 ≤ 26))

instance (v : Nat) : Decidable (legalPfxVersion v) := by
  unfold legalPfxVersion; infer_instance

/-! ## General helpers for reasoning about `Except` computations -/

instance {ε α : Type} [DecidableEq ε] [DecidableEq α] : DecidableEq (Except ε α) := fun x y =>
  match x, y with
  | .ok a, .ok b =>
    if h : a = b then .isTrue (by simp [h]) else .isFalse (by simp [h])
  | .error e, .error f =>
    if h : e = f then .isTrue (by simp [h]) else .isFalse (by simp [h])
  | .ok _, .error _ => .isFalse (by simp)
  | .error _, .ok _ => .isFalse (by simp)

@[simp] theorem okBind {ε α β : Type} (a : α) (f : α → Except ε β) :
    (Except.ok a : Except ε α) >>= f = f a := rfl

@[simp] theorem errBind {ε α β : Type} (e : ε) (f : α → Except ε β) :
    (Except.error e : Except ε α) >>= f = .error e := rfl

/-- `_checkFields` succeeds when every requested field is in the map. -/
theorem checkFields_ok {t : Transaction} {fs : List String}
    (h : ∀ f ∈ fs, f ∈ t.fieldsMap) : t.checkFields fs = .ok () := by
  unfold Transaction.checkFields
  have hn : fs.find? (fun f => !t.fieldsMap.contains f) = none := by
    rw [List.find?_eq_none]
    intro x hx
    simpa using h x hx
  rw [hn]

/-! ## Proofs: C2 (hash) -/

set_option maxRecDepth 100000

/-- **C2**: for every transaction, `tx.hash` is the SHA-256 digest of the
    150-byte buffer; for the transaction parsed from 150 zero bytes the
    digest is `1d83518b897b14e2943990eff655838246cc0207a7c95a5f3dfccc2e395f8bbf`. -/
theorem hash_eq_sha256_and_zero_digest :
    (∀ t : Transaction, t.hash = sha256 t.bytes) ∧
    (Transaction.fromBytes (List.replicate 150 0)).map Transaction.hash =
      Except.ok [0x1d, 0x83, 0x51, 0x8b, 0x89, 0x7b, 0x14, 0xe2,
        0x94, 0x39, 0x90, 0xef, 0xf6, 0x55, 0x83, 0x82,
        0x46, 0xcc, 0x02, 0x07, 0xa7, 0xc9, 0x5a, 0x5f,
        0x3d, 0xfc, 0xcc, 0x2e, 0x39, 0x5f, 0x8b, 0xbf] :=
  ⟨fun _ => rfl, by decide⟩

/-! ## Proofs: C7 (the version gate on an empty transaction) -/

/-- **C7** (counterexample): the nonce setter succeeds on a freshly created
    transaction whose `version` was never set, contradicting the claim that
    every field setter other than the version setter fails there. -/
theorem nonce_setter_before_version_counterexample :
    Transaction.create.fieldsMap.contains "version" = false ∧
    (Transaction.create.setNonce 0).isOk = true := by
  exact ⟨rfl, rfl⟩

/-- **C7** (amended): on a freshly created transaction (version never set),
    every field getter fails and every field setter fails, except that the
    version setter accepts exactly `0..7` and the nonce setter accepts any
    integer in `[0, 9007199254740991]` (it performs no field check). -/
theorem empty_transaction_gate :
    Transaction.create.version = .error "version must be set" ∧
    Transaction.create.sender = .error "sender must be set" ∧
    Transaction.create.recipient = .error "version must be set" ∧
    Transaction.create.value = .error "version must be set" ∧
    Transaction.create.pfx = .error "version must be set" ∧
    Transaction.create.name = .error "version must be set" ∧
    Transaction.create.profitPercent = .error "version must be set" ∧
    Transaction.create.feePercent = .error "version must be set" ∧
    Transaction.create.nonce = .error "nonce must be set" ∧
    Transaction.create.signature = .error "signature must be set" ∧
    (∀ a, Transaction.create.setSender a = .error "version must be set") ∧
    (∀ a, Transaction.create.setRecipient a = .error "version must be set") ∧
    (∀ v, Transaction.create.setValue v = .error "version must be set") ∧
    (∀ p, Transaction.create.setPfx p = .error "version must be set") ∧
    (∀ n, Transaction.create.setName n = .error "version must be set") ∧
    (∀ p, Transaction.create.setProfitPercent p = .error "version must be set") ∧
    (∀ p, Transaction.create.setFeePercent p = .error "version must be set") ∧
    (∀ s, Transaction.create.setSignature s = .error "version must be set") ∧
    (∀ v : Int, (Transaction.create.setVersion v).isOk = true ↔ 0 ≤ v ∧ v ≤ 7) ∧
    (∀ n : Int, 0 ≤ n → n ≤ 9007199254740991 →
      (Transaction.create.setNonce n).isOk = true) := by
  refine ⟨rfl, rfl, rfl, rfl, rfl, rfl, rfl, rfl, rfl, rfl,
    fun _ => rfl, fun _ => rfl, fun _ => rfl, fun _ => rfl, fun _ => rfl,
    fun _ => rfl, fun _ => rfl, fun _ => rfl, ?_, ?_⟩
  · intro v
    unfold Transaction.setVersion
    simp only [show Transaction.create.fieldsMap.contains "version" = false from rfl,
      Bool.false_eq_true, if_false, Transaction.Genesis, Transaction.DeleteTransitAddress]
    split_ifs with h2
    · simp only [Except.isOk, Except.toBool, Bool.false_eq_true, false_iff]
      push_cast at h2
      omega
    · simp only [Except.isOk, Except.toBool, true_iff]
      push_cast at h2
      omega
  · intro n h0 h1
    unfold Transaction.setNonce
    split_ifs with h
    · exfalso; omega
    · rfl

/-- Witness for the amended C7: a concrete in-range nonce is accepted on
    the fresh transaction. -/
theorem empty_transaction_gate_witness :
    (Transaction.create.setNonce 5).isOk = true := by
  obtain ⟨-, -, -, -, -, -, -, -, -, -, -, -, -, -, -, -, -, -, -, h⟩ :=
    empty_transaction_gate
  exact h 5 (by norm_num) (by norm_num)

/-! ## Proofs: C9 (version setter range) -/

/-- **C9**: when `version` has never been set, the version setter accepts
    exactly the integers `0..7`. -/
theorem version_setter_range (t : Transaction)
    (h : t.fieldsMap.contains "version" = false) (v : Int) :
    (t.setVersion v).isOk = true ↔ 0 ≤ v ∧ v ≤ 7 := by
  unfold Transaction.setVersion
  simp only [h, Bool.false_eq_true, if_false, Transaction.Genesis,
    Transaction.DeleteTransitAddress]
  split_ifs with h2
  · simp only [Except.isOk, Except.toBool, Bool.false_eq_true, false_iff]
    push_cast at h2
    omega
  · simp only [Except.isOk, Except.toBool, true_iff]
    push_cast at h2
    omega

/-- Witness for C9 on the fresh transaction at the boundary. -/
theorem version_setter_range_witness :
    (Transaction.create.setVersion 7).isOk = true ∧
    (Transaction.create.setVersion 8).isOk = false := by
  constructor
  · exact (version_setter_range Transaction.create rfl 7).mpr (by norm_num)
  · cases hb : (Transaction.create.setVersion 8).isOk with
    | false => rfl
    | true =>
      exact absurd ((version_setter_range Transaction.create rfl 8).mp hb)
        (by norm_num)

/-! ## Proofs: C5 (recipient version rules) -/

/-- **C5** (counterexample): a Genesis transaction accepts a Umi recipient
    whose version is not the Genesis version, so an accepted recipient is
    not a Genesis-version address even though the transaction is Genesis. -/
theorem recipient_rule_counterexample :
    ((Transaction.create.setVersion 0).bind fun t =>
      t.setRecipient Address.create).isOk = true ∧
    ((Transaction.create.setVersion 0).map fun t => t.bytes.getD 0 0) =
      .ok Transaction.Genesis ∧
    Address.version Address.create = Address.Umi ∧
    Address.Umi ≠ Address.Genesis := by
  exact ⟨by decide, by decide, by decide, by decide⟩

/-- **C5** (amended): with `version` set, the recipient setter accepts an
    address iff the transaction is not a structure variant, the address is
    never Genesis-version, it is exactly Umi when the transaction is
    Genesis, and it is not Umi outside Genesis/Basic. -/
theorem recipient_version_rules (t : Transaction) (a : Address)
    (hv : t.fieldsMap.contains "version" = true) :
    (t.setRecipient a).isOk = true ↔
      (t.bytes.getD 0 0 ≠ Transaction.CreateStructure ∧
       t.bytes.getD 0 0 ≠ Transaction.UpdateStructure ∧
       a.version ≠ Address.Genesis ∧
       (t.bytes.getD 0 0 = Transaction.Genesis → a.version = Address.Umi) ∧
       (t.bytes.getD 0 0 ≠ Transaction.Genesis → t.bytes.getD 0 0 ≠ Transaction.Basic →
         a.version ≠ Address.Umi)) := by
  unfold Transaction.setRecipient
  rw [checkFields_ok (by simpa using hv)]
  simp only [okBind, Transaction.Genesis, Transaction.Basic,
    Transaction.CreateStructure, Transaction.UpdateStructure, Address.Genesis, Address.Umi]
  split_ifs with h1 h2 h3 h4 <;>
    simp only [Except.isOk, Except.toBool, Bool.false_eq_true, false_iff, true_iff,
      not_and, not_or, ne_eq, not_not] <;>
    omega

/-- Witness for the amended C5: a Basic transaction accepts a Umi recipient. -/
theorem recipient_version_rules_witness :
    ((⟨(List.replicate 150 0).set 0 1, ["version"]⟩ : Transaction).setRecipient
      Address.create).isOk = true :=
  (recipient_version_rules _ _ (by decide)).mpr (by decide)

/-! ## Proofs: C6 (value/nonce ranges), counterexample -/

/-- **C6** (counterexample): the value setter rejects `0` on a Basic
    transaction, although `0` lies in the claimed interval `[0, 2^53 - 1]`. -/
theorem value_setter_zero_counterexample :
    ((Transaction.create.setVersion 1).bind fun t => t.setValue 0) =
      .error "value must be between 1 and 9007199254740991" := by
  decide


/-! ## Proofs: C6 (value and nonce ranges) and C8 (address high bit) -/

/-- Every `getD _ 0` read of a well-formed byte buffer is a byte. -/
theorem byteBuf_getD {n : Nat} {b : List Nat} (h : ByteBuf n b) (i : Nat) :
    b.getD i 0 < 256 := by
  rcases h with ⟨-, hb⟩
  rw [List.getD_eq_getElem?_getD]
  rcases hx : b[i]? with - | x
  · norm_num
  · exact hb x (List.getElem?_mem hx)

/-- Reading back a `setUint32` write. -/
theorem getD_setUint32 (b : List Nat) (off v j : Nat) (hlen : off + 4 ≤ b.length) :
    (setUint32 b off v).getD j 0 =
      if j = off then v / 16777216 % 256
      else if j = off + 1 then v / 65536 % 256
      else if j = off + 2 then v / 256 % 256
      else if j = off + 3 then v % 256
      else b.getD j 0 := by
  unfold setUint32
  simp only [List.getD_eq_getElem?_getD]
  split_ifs with h1 h2 h3 h4 <;> subst_vars
  · rw [List.getElem?_set_ne (by omega), List.getElem?_set_ne (by omega),
      List.getElem?_set_ne (by omega), List.getElem?_set_self (by omega)]
    rfl
  · rw [List.getElem?_set_ne (by omega), List.getElem?_set_ne (by omega),
      List.getElem?_set_self (by simp only [List.length_set]; omega)]
    rfl
  · rw [List.getElem?_set_ne (by omega),
      List.getElem?_set_self (by simp only [List.length_set]; omega)]
    rfl
  · rw [List.getElem?_set_self (by simp only [List.length_set]; omega)]
    rfl
  · rw [List.getElem?_set_ne (by omega), List.getElem?_set_ne (by omega),
      List.getElem?_set_ne (by omega), List.getElem?_set_ne (by omega)]

/-- **C6** (amended): for a Genesis or Basic transaction with version set,
    the value setter accepts exactly the integers in `[1, 2^53-1]` and
    writes big-endian bytes at offset 69; the value and nonce getters fail
    exactly when the stored big-endian u64 exceeds `2^53-1`. -/
theorem value_nonce_range_rules (t : Transaction)
    (hwf : ByteBuf 150 t.bytes)
    (hv : "version" ∈ t.fieldsMap)
    (hver : t.bytes.getD 0 0 = Transaction.Genesis ∨ t.bytes.getD 0 0 = Transaction.Basic) :
    (∀ value : Int, (t.setValue value).isOk = true ↔
        1 ≤ value ∧ value ≤ 9007199254740991) ∧
    (∀ value : Int, 1 ≤ value → value ≤ 9007199254740991 →
      ∃ t', t.setValue value = .ok t' ∧
        (∀ j < 8, t'.bytes.getD (69 + j) 0 =
          value.toNat / 2 ^ (8 * (7 - j)) % 256)) ∧
    ("value" ∈ t.fieldsMap →
      ((t.value).isOk = false ↔
        getUint32 t.bytes 69 * 4294967296 + getUint32 t.bytes 73 > 9007199254740991) ∧
      (getUint32 t.bytes 69 * 4294967296 + getUint32 t.bytes 73 ≤ 9007199254740991 →
        t.value = .ok (getUint32 t.bytes 69 * 4294967296 + getUint32 t.bytes 73))) ∧
    ("nonce" ∈ t.fieldsMap →
      ((t.nonce).isOk = false ↔
        getUint32 t.bytes 77 * 4294967296 + getUint32 t.bytes 81 > 9007199254740991) ∧
      (getUint32 t.bytes 77 * 4294967296 + getUint32 t.bytes 81 ≤ 9007199254740991 →
        t.nonce = .ok (getUint32 t.bytes 77 * 4294967296 + getUint32 t.bytes 81))) := by
  have hlen : t.bytes.length = 150 := hwf.1
  have hb : ∀ i, t.bytes.getD i 0 < 256 := byteBuf_getD hwf
  have hver' : t.bytes.getD 0 0 = 0 ∨ t.bytes.getD 0 0 = 1 := hver
  refine ⟨?_, ?_, ?_, ?_⟩
  · intro value
    unfold Transaction.setValue
    rw [checkFields_ok (by simpa using hv)]
    simp only [okBind, Transaction.Genesis, Transaction.Basic]
    split_ifs with h1 h2
    · omega
    · simp only [Except.isOk, Except.toBool, Bool.false_eq_true, false_iff]
      push_cast at h2
      omega
    · simp only [Except.isOk, Except.toBool, true_iff]
      push_cast at h2
      omega
  · intro value hlo hhi
    unfold Transaction.setValue
    rw [checkFields_ok (by simpa using hv)]
    simp only [okBind, Transaction.Genesis, Transaction.Basic]
    split_ifs with h1 h2
    · omega
    · push_cast at h2; omega
    · refine ⟨_, rfl, ?_⟩
      intro j hj
      simp only [Transaction.setFields]
      rw [getD_setUint32 _ _ _ _ (by simp only [setUint32, List.length_set]; omega),
        getD_setUint32 _ _ _ _ (by omega)]
      have hn : (0:Int) ≤ value := by omega
      interval_cases j <;> simp only [] <;> split_ifs <;> omega
  · intro hval
    unfold Transaction.value
    rw [checkFields_ok (by simpa using hv), checkFields_ok (by simpa using hval)]
    simp only [okBind, Transaction.Genesis, Transaction.Basic]
    rw [if_neg (by omega)]
    constructor
    · split_ifs with hg
      · simp only [Except.isOk, Except.toBool, true_iff]  -- error case: isOk=false
        unfold getUint16 at hg
        unfold getUint32
        have := hb 69; have := hb 70; have := hb 71; have := hb 72
        have := hb 73; have := hb 74; have := hb 75; have := hb 76
        omega
      · simp only [Except.isOk, Except.toBool, Bool.false_eq_true]
        constructor
        · intro h; cases h
        · intro h
          exfalso
          unfold getUint16 at hg
          unfold getUint32 at h
          have := hb 69; have := hb (69+1); have := hb (69+2); have := hb (69+3)
          have := hb 73; have := hb (73+1); have := hb (73+2); have := hb (73+3)
          omega
    · intro hle
      rw [if_neg ?_]
      unfold getUint16
      unfold getUint32 at hle
      have := hb 69; have := hb (69+1); have := hb (69+2); have := hb (69+3)
      have := hb 73; have := hb (73+1); have := hb (73+2); have := hb (73+3)
      omega
  · intro hval
    unfold Transaction.nonce
    rw [checkFields_ok (by simpa using hval)]
    simp only [okBind]
    constructor
    · split_ifs with hg
      · simp only [Except.isOk, Except.toBool, true_iff]
        unfold getUint16 at hg
        unfold getUint32
        have := hb 77; have := hb 78; have := hb 79; have := hb 80
        have := hb 81; have := hb 82; have := hb 83; have := hb 84
        omega
      · simp only [Except.isOk, Except.toBool, Bool.false_eq_true]
        constructor
        · intro h; cases h
        · intro h
          exfalso
          unfold getUint16 at hg
          unfold getUint32 at h
          have := hb 77; have := hb (77+1); have := hb (77+2); have := hb (77+3)
          have := hb 81; have := hb (81+1); have := hb (81+2); have := hb (81+3)
          omega
    · intro hle
      rw [if_neg ?_]
      unfold getUint16
      unfold getUint32 at hle
      have := hb 77; have := hb (77+1); have := hb (77+2); have := hb (77+3)
      have := hb 81; have := hb (81+1); have := hb (81+2); have := hb (81+3)
      omega

/-- Witness for the amended C6: a Basic transaction accepts the value 5. -/
theorem value_nonce_range_rules_witness :
    ((⟨(List.replicate 150 0).set 0 1, ["version"]⟩ : Transaction).setValue 5).isOk
      = true := by
  have h := value_nonce_range_rules ⟨(List.replicate 150 0).set 0 1, ["version"]⟩
    (by decide) (by decide) (by decide)
  exact (h.1 5).mpr (by norm_num)

/-- Reading back a `setUint16` write. -/
theorem getD_setUint16 (b : List Nat) (off v j : Nat) (hlen : off + 2 ≤ b.length) :
    (setUint16 b off v).getD j 0 =
      if j = off then v / 256 % 256
      else if j = off + 1 then v % 256
      else b.getD j 0 := by
  unfold setUint16
  simp only [List.getD_eq_getElem?_getD]
  split_ifs with h1 h2 <;> subst_vars
  · rw [List.getElem?_set_ne (by omega), List.getElem?_set_self (by omega)]
    rfl
  · rw [List.getElem?_set_self (by simp only [List.length_set]; omega)]
    rfl
  · rw [List.getElem?_set_ne (by omega), List.getElem?_set_ne (by omega)]

/-- `setUint16` preserves the length. -/
theorem length_setUint16 (b : List Nat) (off v : Nat) :
    (setUint16 b off v).length = b.length := by
  simp [setUint16]

/-- `setUint32` preserves the length. -/
theorem length_setUint32 (b : List Nat) (off v : Nat) :
    (setUint32 b off v).length = b.length := by
  simp [setUint32]

/-- `writeBytes` preserves the length when the write fits. -/
theorem length_writeBytes (b src : List Nat) (off : Nat)
    (h : off + src.length ≤ b.length) :
    (writeBytes b off src).length = b.length := by
  simp [writeBytes]
  omega

/-- A prefix parses to a version below `2^15`. -/
theorem pfxToVersion_lt {p : List Nat} {v : Nat} (h : pfxToVersion p = .ok v) :
    v < 32768 := by
  unfold pfxToVersion at h
  split_ifs at h <;> simp_all [Nat.shiftLeft_eq]
  · omega
  · split_ifs at h <;> simp_all <;> omega

/-- A successful Bech32 decode yields 34 bytes whose version high bit is
    clear. -/
theorem ok_of_bind {ε α β : Type} {x : Except ε α} {f : α → Except ε β} {b : β}
    (h : x >>= f = .ok b) : ∃ a, x = .ok a ∧ f a = .ok b := by
  cases x with
  | error e => simp at h
  | ok a => exact ⟨a, rfl, by simpa using h⟩

theorem decode_ok_byte0 {s b : List Nat} (h : Bech32.decode s = .ok b) :
    b.length = 34 ∧ b.getD 0 0 < 128 := by
  unfold Bech32.decode at h
  obtain ⟨raw, hraw, h⟩ := ok_of_bind h
  obtain ⟨bytes, hconv, h⟩ := ok_of_bind h
  split_ifs at h with hne
  obtain ⟨pv, hpv, h⟩ := ok_of_bind h
  injection h with h
  subst h
  have hblen : bytes.length = 32 := by omega
  have hpl := pfxToVersion_lt hpv
  have hwlen : (writeBytes (List.replicate 34 0) 2 bytes).length = 34 := by
    rw [length_writeBytes] <;> simp [hblen]
    
  constructor
  · rw [length_setUint16, hwlen]
  · rw [getD_setUint16 _ _ _ _ (by omega)]
    split_ifs <;> omega

/-- Writing the public key at offset 2 leaves byte 0 unchanged. -/
theorem setPublicKey_getD0 (a : Address) (pk : PublicKey)
    (h : 1 ≤ a.bytes.length) :
    (a.setPublicKey pk).bytes.getD 0 0 = a.bytes.getD 0 0 := by
  unfold Address.setPublicKey writeBytes
  rcases hb : a.bytes with - | ⟨x, t⟩
  · rw [hb] at h; simp at h
  · simp [List.take_cons]

/-- `Address#setVersion` always clears the high bit of byte 0. -/
theorem setVersion_ok_byte0 {a : Address} {v : Nat} {a' : Address}
    (h : Address.setVersion a v = .ok a') : a'.bytes.getD 0 0 < 128 := by
  unfold Address.setVersion at h
  obtain ⟨p, hp, h⟩ := ok_of_bind h
  injection h with h
  subst h
  have hw : v &&& 0x7FFF ≤ 32767 := Nat.and_le_right
  unfold setUint16
  rcases hb : a.bytes with - | ⟨x, t⟩
  · simp
  · simp only [List.set_cons_zero, List.set_cons_succ, List.getD_cons_zero]
    omega

/-- **C8** (counterexample): `new Address(bytes)` copies 34 raw bytes with
    no validation, so a buffer whose byte 0 is `0x80` yields an address
    whose version word has the high bit set. -/
theorem address_high_bit_counterexample :
    Address.fromBytes (128 :: List.replicate 33 0) =
      .ok ⟨128 :: List.replicate 33 0⟩ ∧
    Address.version ⟨128 :: List.replicate 33 0⟩ = 32768 ∧
    ¬ ((32768 : Nat) &&& 0x8000 = 0) :=
  ⟨by decide, by decide, by decide⟩

/-- **C8** (amended): an address built empty, from a key, or from Bech32
    has the high bit of its version word clear, and the version, prefix,
    bech32 and publicKey setters preserve this; only raw-bytes
    construction can violate it. -/
theorem address_high_bit_invariant :
    (Address.create.bytes.getD 0 0 < 128 ∧ Address.create.bytes.length = 34) ∧
    (∀ k, (Address.fromKey k).bytes.getD 0 0 < 128) ∧
    (∀ s a, Address.fromBech32 s = .ok a →
      a.bytes.getD 0 0 < 128 ∧ a.bytes.length = 34) ∧
    (∀ (a : Address) v a', a.setVersion v = .ok a' → a'.bytes.getD 0 0 < 128) ∧
    (∀ (a : Address) p a', a.setPfx p = .ok a' → a'.bytes.getD 0 0 < 128) ∧
    (∀ (a : Address) s a', a.bytes.length = 34 → a.setBech32 s = .ok a' →
      a'.bytes.getD 0 0 < 128 ∧ a'.bytes.length = 34) ∧
    (∀ (a : Address) pk, 1 ≤ a.bytes.length →
      (a.setPublicKey pk).bytes.getD 0 0 = a.bytes.getD 0 0) := by
  have hbech : ∀ (a : Address) s a', a.bytes.length = 34 → a.setBech32 s = .ok a' →
      a'.bytes.getD 0 0 < 128 ∧ a'.bytes.length = 34 := by
    intro a s a' hlen h
    unfold Address.setBech32 at h
    obtain ⟨b, hdec, h⟩ := ok_of_bind h
    injection h with h
    subst h
    obtain ⟨hb34, hb0⟩ := decode_ok_byte0 hdec
    have hdrop : a.bytes.drop (0 + b.length) = [] := by
      rw [List.drop_eq_nil_iff]
      omega
    constructor
    · unfold writeBytes
      rw [hdrop]
      simp only [List.take_zero, List.nil_append, List.append_nil]
      exact hb0
    · unfold writeBytes
      rw [hdrop]
      simp only [List.take_zero, List.nil_append, List.append_nil]
      omega
  refine ⟨⟨by decide, by decide⟩, ?_, ?_, ?_, ?_, hbech, ?_⟩
  · intro k
    have h34 : (1:Nat) ≤ Address.create.bytes.length := by decide
    cases k with
    | inl sk => rw [Address.fromKey, setPublicKey_getD0 _ _ h34]; decide
    | inr pk => rw [Address.fromKey, setPublicKey_getD0 _ _ h34]; decide
  · intro s a h
    exact hbech Address.create s a (by decide) h
  · intro a v a' h
    exact setVersion_ok_byte0 h
  · intro a p a' h
    unfold Address.setPfx at h
    obtain ⟨pv, hpv, h⟩ := ok_of_bind h
    exact setVersion_ok_byte0 h
  · intro a pk h
    exact setPublicKey_getD0 a pk h

/-- Witness for the amended C8: setting version `1057` on the default
    address leaves the high bit clear. -/
theorem address_high_bit_invariant_witness :
    (⟨setUint16 Address.create.bytes 0 (1057 &&& 0x7FFF)⟩ : Address).bytes.getD 0 0
      < 128 := by
  obtain ⟨-, -, -, h, -⟩ := address_high_bit_invariant
  exact h Address.create 1057 _ rfl


/-! ## Proofs: C4 (prefix codec roundtrip) -/

/-- JS `(v & (31 << k)) >> k` extracts the 5-bit field at bit `k`. -/
theorem masked_field (v k : Nat) :
    (v &&& (31 <<< k)) >>> k = v / 2 ^ k % 32 := by
  apply Nat.eq_of_testBit_eq
  intro i
  rw [Nat.testBit_shiftRight, Nat.testBit_and, Nat.testBit_shiftLeft]
  rw [show (32 : Nat) = 2 ^ 5 from rfl, ← Nat.shiftRight_eq_div_pow]
  rw [Nat.testBit_mod_two_pow, Nat.testBit_shiftRight]
  have h1 : k ≤ k + i := Nat.le_add_right k i
  have h2 : k + i - k = i := by omega
  rw [h2, show (31 : Nat) = 2 ^ 5 - 1 from rfl, Nat.testBit_two_pow_sub_one]
  simp only [h1, decide_True, Bool.true_and]
  cases v.testBit (k + i) <;> simp

theorem masked_field10 (v : Nat) : (v &&& 31744) >>> 10 = v / 1024 % 32 := by
  have h := masked_field v 10
  rw [show ((31 : Nat) <<< 10) = 31744 from rfl, show (2 ^ 10 : Nat) = 1024 from rfl] at h
  exact h

theorem masked_field5 (v : Nat) : (v &&& 992) >>> 5 = v / 32 % 32 := by
  have h := masked_field v 5
  rw [show ((31 : Nat) <<< 5) = 992 from rfl, show (2 ^ 5 : Nat) = 32 from rfl] at h
  exact h

/-- The JS `(v & 0x8000) === 0x8000` test reads bit 15. -/
theorem and_high_bit (v : Nat) : v &&& 32768 = 32768 ↔ v / 32768 % 2 = 1 := by
  have hbit : v.testBit 15 = decide (v / 32768 % 2 = 1) := Nat.testBit_to_div_mod
  constructor
  · intro h
    have h15 := congrArg (fun x => x.testBit 15) h
    simp only [Nat.testBit_and, show (32768 : Nat) = 2 ^ 15 from rfl,
      Nat.testBit_two_pow, decide_True] at h15
    rw [hbit] at h15
    simpa using h15
  · intro h
    apply Nat.eq_of_testBit_eq
    intro i
    rw [Nat.testBit_and, show (32768 : Nat) = 2 ^ 15 from rfl, Nat.testBit_two_pow]
    by_cases hi : 15 = i
    · subst hi
      simp [hbit, h]
    · simp [hi]

/-- **C4**: `prefix_to_version ∘ version_to_prefix` is the identity on `0`
    and on every `u16` whose three 5-bit fields lie in `1..26` with the
    high bit clear; on every other `u16` the composition fails with the
    error of `version_to_prefix`. -/
theorem pfx_version_roundtrip (v : Nat) (hv : v < 65536) :
    (legalPfxVersion v → (versionToPfx v).bind pfxToVersion = .ok v) ∧
    (¬ legalPfxVersion v →
      ∃ e, versionToPfx v = .error e ∧
        (versionToPfx v).bind pfxToVersion = .error e) := by
  constructor
  · intro hleg
    rcases hleg with rfl | ⟨hh, hfa, hfb, hfc⟩
    · rfl
    · have hne0 : v ≠ 0 := by omega
      have hbit : ¬(v &&& 32768 = 32768) := by
        rw [and_high_bit]
        omega
      unfold versionToPfx
      rw [if_neg hne0, if_neg hbit, masked_field10, masked_field5,
        show ∀ x, x &&& 31 = x % 32 from fun x => by
          simpa using Nat.and_pow_two_sub_one_eq_mod x 5]
      rw [if_neg (by omega), if_neg (by omega), if_neg (by omega)]
      show pfxToVersion _ = _
      unfold pfxToVersion
      rw [if_neg (by simp [genesisChars]), if_neg (by simp)]
      simp only [List.getD_cons_zero, List.getD_cons_succ]
      rw [if_neg (by omega), if_neg (by omega), if_neg (by omega),
        Nat.shiftLeft_eq, Nat.shiftLeft_eq]
      have hlt : v < 32768 := by
        rcases Nat.lt_or_ge v 32768 with h | h
        · exact h
        · exfalso; omega
      congr 1
      omega
  · intro hleg
    unfold legalPfxVersion at hleg
    push_neg at hleg
    obtain ⟨hne0, hrest⟩ := hleg
    unfold versionToPfx
    rw [if_neg hne0]
    by_cases hbit : v &&& 32768 = 32768
    · rw [if_pos hbit]
      exact ⟨_, rfl, rfl⟩
    · rw [if_neg hbit, masked_field10, masked_field5,
        show ∀ x, x &&& 31 = x % 32 from fun x => by
          simpa using Nat.and_pow_two_sub_one_eq_mod x 5]
      have hh : v / 32768 % 2 = 0 := by
        rw [and_high_bit] at hbit
        omega
      by_cases ha : v / 1024 % 32 < 1 ∨ v / 1024 % 32 > 26
      · rw [if_pos ha]
        exact ⟨_, rfl, rfl⟩
      · rw [if_neg ha]
        by_cases hb : v / 32 % 32 < 1 ∨ v / 32 % 32 > 26
        · rw [if_pos hb]
          exact ⟨_, rfl, rfl⟩
        · rw [if_neg hb]
          by_cases hc : v % 32 < 1 ∨ v % 32 > 26
          · rw [if_pos hc]
            exact ⟨_, rfl, rfl⟩
          · exfalso
            exact absurd (hrest hh) (by omega)

/-- Witness for C4 at the Umi version `21929`. -/
theorem pfx_version_roundtrip_witness :
    (versionToPfx 21929).bind pfxToVersion = .ok 21929 :=
  (pfx_version_roundtrip 21929 (by norm_num)).1 (by decide)

/-! ## C3 machinery, part A: the bit-regrouping roundtrip of `_convert` -/

/-- The numeric value of a big-endian digit list in the given base. -/
def listVal (base : Nat) (l : List Nat) : Nat :=
  l.foldl (fun acc d => acc * base + d) 0

theorem foldl_listVal (base : Nat) (l : List Nat) (a : Nat) :
    l.foldl (fun acc d => acc * base + d) a = a * base ^ l.length + listVal base l := by
  induction l generalizing a with
  | nil => simp [listVal]
  | cons x t ih =>
    simp only [List.foldl_cons, List.length_cons, listVal]
    rw [ih, ih (0 * base + x)]
    ring

theorem listVal_cons (base x : Nat) (t : List Nat) :
    listVal base (x :: t) = x * base ^ t.length + listVal base t := by
  have h := foldl_listVal base t x
  simp only [listVal, List.foldl_cons]
  simpa using h

theorem listVal_append (base : Nat) (l1 l2 : List Nat) :
    listVal base (l1 ++ l2) = listVal base l1 * base ^ l2.length + listVal base l2 := by
  simp only [listVal, List.foldl_append]
  exact foldl_listVal base l2 _

theorem listVal_lt (base : Nat) (l : List Nat) (h : ∀ x ∈ l, x < base) :
    listVal base l < base ^ l.length := by
  induction l with
  | nil => simp [listVal]
  | cons x t ih =>
    rw [listVal_cons, List.length_cons, pow_succ]
    have hx : x + 1 ≤ base := h x (List.mem_cons_self x t)
    have ht : listVal base t < base ^ t.length := ih fun y hy => h y (List.mem_cons_of_mem x hy)
    calc x * base ^ t.length + listVal base t
        < (x + 1) * base ^ t.length := by
          rw [Nat.succ_mul]
          omega
      _ ≤ base * base ^ t.length := Nat.mul_le_mul_right _ hx
      _ = base ^ t.length * base := Nat.mul_comm _ _

theorem listVal_inj (base : Nat) (l1 l2 : List Nat)
    (h1 : ∀ x ∈ l1, x < base) (h2 : ∀ x ∈ l2, x < base)
    (hlen : l1.length = l2.length) (hv : listVal base l1 = listVal base l2) :
    l1 = l2 := by
  induction l1 generalizing l2 with
  | nil =>
    cases l2 with
    | nil => rfl
    | cons y u => simp at hlen
  | cons x t ih =>
    cases l2 with
    | nil => simp at hlen
    | cons y u =>
      simp only [List.length_cons, Nat.add_right_cancel_iff] at hlen
      rw [listVal_cons, listVal_cons, hlen] at hv
      have hxt : listVal base t < base ^ u.length := by
        rw [← hlen]
        exact listVal_lt base t fun z hz => h1 z (List.mem_cons_of_mem x hz)
      have hyu : listVal base u < base ^ u.length :=
        listVal_lt base u fun z hz => h2 z (List.mem_cons_of_mem y hz)
      have hxy : x = y := by
        rcases Nat.lt_trichotomy x y with hlt | heq | hgt
        · exfalso
          have : x * base ^ u.length + base ^ u.length ≤ y * base ^ u.length := by
            have := Nat.mul_le_mul_right (base ^ u.length) hlt
            calc x * base ^ u.length + base ^ u.length
                = (x + 1) * base ^ u.length := by rw [Nat.succ_mul]
              _ ≤ y * base ^ u.length := Nat.mul_le_mul_right _ hlt
          omega
        · exact heq
        · exfalso
          have : y * base ^ u.length + base ^ u.length ≤ x * base ^ u.length := by
            calc y * base ^ u.length + base ^ u.length
                = (y + 1) * base ^ u.length := by rw [Nat.succ_mul]
              _ ≤ x * base ^ u.length := Nat.mul_le_mul_right _ hgt
          omega
      subst hxy
      have hvt : listVal base t = listVal base u := by omega
      exact congrArg (List.cons x) (ih u (fun z hz => h1 z (List.mem_cons_of_mem x hz))
        (fun z hz => h2 z (List.mem_cons_of_mem x hz)) hlen hvt)
/-- Full characterization of the inner emit loop: it peels `bits / outB`
    top groups off the pending buffer, leaving the low `bits % outB` bits. -/
theorem Bech32.pushWordsGo_spec (outB value : Nat) (hout : 0 < outB) :
    ∀ fuel bits, bits ≤ fuel →
    ∃ ws b, Bech32.pushWordsGo outB (2 ^ outB - 1) value fuel bits = (ws, b) ∧
      b = bits % outB ∧ ws.length = bits / outB ∧
      (∀ w ∈ ws, w < 2 ^ outB) ∧
      listVal (2 ^ outB) ws * 2 ^ (bits % outB) + value % 2 ^ (bits % outB)
        = value % 2 ^ bits := by
  intro fuel
  induction fuel with
  | zero =>
    intro bits hb
    have hz : bits = 0 := by omega
    subst hz
    exact ⟨[], 0, rfl, by simp, by simp, by simp, by simp [listVal]⟩
  | succ fuel ih =>
    intro bits hb
    by_cases hcond : 0 < outB ∧ outB ≤ bits
    · obtain ⟨ws, b, heq, hbmod, hlen, hbound, hval⟩ := ih (bits - outB) (by omega)
      refine ⟨((value >>> (bits - outB)) &&& (2 ^ outB - 1)) :: ws, b, ?_, ?_, ?_, ?_, ?_⟩
      · unfold Bech32.pushWordsGo
        rw [if_pos hcond]
        simp only [heq]
      · rw [hbmod, Nat.mod_eq_sub_mod hcond.2]
      · simp only [List.length_cons, hlen]
        rw [Nat.div_eq_sub_div hout hcond.2]
      · intro w hw
        rcases List.mem_cons.mp hw with rfl | hw
        · have h1 : value >>> (bits - outB) &&& (2 ^ outB - 1) ≤ 2 ^ outB - 1 :=
            Nat.and_le_right
          have h2 : 0 < 2 ^ outB := Nat.pos_pow_of_pos _ (by norm_num)
          omega
        · exact hbound w hw
      · have hK : bits - outB + outB = bits := by omega
        rw [Nat.mod_eq_sub_mod hcond.2]
        rw [listVal_cons, hlen, Nat.shiftRight_eq_div_pow, Nat.and_pow_two_sub_one_eq_mod]
        have hpow : (2 ^ outB) ^ ((bits - outB) / outB) * 2 ^ ((bits - outB) % outB)
            = 2 ^ (bits - outB) := by
          rw [← Nat.pow_mul, ← Nat.pow_add]
          congr 1
          exact Nat.div_add_mod _ _
        have hsplit : value % 2 ^ bits
            = value % 2 ^ (bits - outB)
              + 2 ^ (bits - outB) * (value / 2 ^ (bits - outB) % 2 ^ outB) := by
          have h2 : (2:Nat) ^ bits = 2 ^ (bits - outB) * 2 ^ outB := by
            rw [← Nat.pow_add, hK]
          rw [h2]
          exact Nat.mod_mul
        rw [hsplit]
        calc (value / 2 ^ (bits - outB) % 2 ^ outB * (2 ^ outB) ^ ((bits - outB) / outB)
                + listVal (2 ^ outB) ws) * 2 ^ ((bits - outB) % outB)
              + value % 2 ^ ((bits - outB) % outB)
            = value / 2 ^ (bits - outB) % 2 ^ outB
                * ((2 ^ outB) ^ ((bits - outB) / outB) * 2 ^ ((bits - outB) % outB))
              + (listVal (2 ^ outB) ws * 2 ^ ((bits - outB) % outB)
                + value % 2 ^ ((bits - outB) % outB)) := by ring
          _ = value / 2 ^ (bits - outB) % 2 ^ outB * 2 ^ (bits - outB)
              + value % 2 ^ (bits - outB) := by rw [hpow, hval]
          _ = value % 2 ^ (bits - outB)
              + 2 ^ (bits - outB) * (value / 2 ^ (bits - outB) % 2 ^ outB) := by ring
    · have hlt : bits < outB := by omega
      refine ⟨[], bits, ?_, ?_, ?_, by simp, ?_⟩
      · unfold Bech32.pushWordsGo
        rw [if_neg hcond]
      · rw [Nat.mod_eq_of_lt hlt]
      · rw [Nat.div_eq_of_lt hlt]
        rfl
      · simp [listVal, Nat.mod_eq_of_lt hlt]
/-- One step of the conversion loop appends `inB` fresh bits below the
    pending buffer (the 32-bit truncation of the JS shift is invisible
    while `bits + inB ≤ 32`). -/
theorem convert_step_mod (value d inB bits : Nat) (hd : d < 2 ^ inB)
    (hb : bits + inB ≤ 32) :
    (((value <<< inB) ||| d) % 4294967296) % 2 ^ (bits + inB)
      = (value % 2 ^ bits) * 2 ^ inB + d := by
  have hor : (value <<< inB) ||| d = 2 ^ inB * value + d := by
    rw [Nat.shiftLeft_eq, Nat.mul_comm]
    exact (Nat.mul_add_lt_is_or hd value).symm
  rw [hor, show (4294967296 : Nat) = 2 ^ 32 from rfl,
    Nat.mod_mod_of_dvd _ (Nat.pow_dvd_pow 2 hb)]
  have hpow : (2 : Nat) ^ (bits + inB) = 2 ^ inB * 2 ^ bits := by
    rw [← Nat.pow_add, Nat.add_comm]
  rw [hpow]
  have hsplit : (2 ^ inB * value + d) % (2 ^ inB * 2 ^ bits)
      = (2 ^ inB * value + d) % 2 ^ inB
        + 2 ^ inB * ((2 ^ inB * value + d) / 2 ^ inB % 2 ^ bits) := Nat.mod_mul
  rw [hsplit, Nat.mul_add_mod, Nat.mod_eq_of_lt hd,
    Nat.mul_add_div (Nat.pos_pow_of_pos _ (by norm_num)),
    Nat.div_eq_of_lt hd, Nat.add_zero]
  ring

/-- Full characterization of the `_convert` main loop. -/
theorem convertLoop_spec (inB outB : Nat) (hout : 0 < outB) (hsz : inB + outB ≤ 32) :
    ∀ (data : List Nat) (value bits : Nat), bits < outB →
    (∀ d ∈ data, d < 2 ^ inB) →
    ∃ ws v b, Bech32.convertLoop inB outB (2 ^ outB - 1) data value bits = (ws, v, b) ∧
      b < outB ∧ (∀ w ∈ ws, w < 2 ^ outB) ∧
      outB * ws.length + b = bits + inB * data.length ∧
      listVal (2 ^ outB) ws * 2 ^ b + v % 2 ^ b
        = (value % 2 ^ bits) * 2 ^ (inB * data.length) + listVal (2 ^ inB) data := by
  intro data
  induction data with
  | nil =>
    intro value bits hb _
    exact ⟨[], value, bits, rfl, hb, by simp, by simp, by simp [listVal]⟩
  | cons d rest ih =>
    intro value bits hb hd
    obtain ⟨ws1, b1, hpw, hb1mod, hlen1, hbound1, hval1⟩ :=
      Bech32.pushWordsGo_spec outB (((value <<< inB) ||| d) % 4294967296) hout
        (bits + inB) (bits + inB) le_rfl
    obtain ⟨ws2, v2, b2, hcl, hb2, hbound2, hcount2, hval2⟩ :=
      ih (((value <<< inB) ||| d) % 4294967296) b1
        (by rw [hb1mod]; exact Nat.mod_lt _ hout)
        (fun x hx => hd x (List.mem_cons_of_mem d hx))
    subst hb1mod
    refine ⟨ws1 ++ ws2, v2, b2, ?_, hb2, ?_, ?_, ?_⟩
    · unfold Bech32.convertLoop Bech32.pushWords
      simp only [hpw, hcl]
    · intro w hw
      rcases List.mem_append.mp hw with hw | hw
      · exact hbound1 w hw
      · exact hbound2 w hw
    · have hdm := Nat.div_add_mod (bits + inB) outB
      have hmul : inB * (d :: rest).length = inB * rest.length + inB := by
        simp [List.length_cons, Nat.mul_succ]
      rw [List.length_append, Nat.mul_add, hlen1]
      omega
    · have hstep := convert_step_mod value d inB bits (hd d (List.mem_cons_self d rest))
        (by omega)
      have hpow2 : (2 ^ outB : Nat) ^ ws2.length * 2 ^ b2
          = 2 ^ ((bits + inB) % outB) * 2 ^ (inB * rest.length) := by
        rw [← Nat.pow_mul, ← Nat.pow_add, ← Nat.pow_add]
        have he : outB * ws2.length + b2 = (bits + inB) % outB + inB * rest.length := by
          omega
        rw [he]
      calc listVal (2 ^ outB) (ws1 ++ ws2) * 2 ^ b2 + v2 % 2 ^ b2
          = listVal (2 ^ outB) ws1 * ((2 ^ outB) ^ ws2.length * 2 ^ b2)
            + (listVal (2 ^ outB) ws2 * 2 ^ b2 + v2 % 2 ^ b2) := by
            rw [listVal_append]
            ring
        _ = listVal (2 ^ outB) ws1 * (2 ^ ((bits + inB) % outB) * 2 ^ (inB * rest.length))
            + ((((value <<< inB) ||| d) % 4294967296) % 2 ^ ((bits + inB) % outB)
                * 2 ^ (inB * rest.length)
              + listVal (2 ^ inB) rest) := by
            rw [hpow2, hval2]
        _ = (listVal (2 ^ outB) ws1 * 2 ^ ((bits + inB) % outB)
              + (((value <<< inB) ||| d) % 4294967296) % 2 ^ ((bits + inB) % outB))
            * 2 ^ (inB * rest.length) + listVal (2 ^ inB) rest := by ring
        _ = (((value <<< inB) ||| d) % 4294967296) % 2 ^ (bits + inB)
            * 2 ^ (inB * rest.length) + listVal (2 ^ inB) rest := by
            rw [hval1]
        _ = ((value % 2 ^ bits) * 2 ^ inB + d) * 2 ^ (inB * rest.length)
            + listVal (2 ^ inB) rest := by rw [hstep]
        _ = (value % 2 ^ bits) * 2 ^ (inB * (d :: rest).length)
            + listVal (2 ^ inB) (d :: rest) := by
            rw [listVal_cons, List.length_cons, ← Nat.pow_mul]
            rw [show inB * (rest.length + 1) = inB * rest.length + inB by ring, Nat.pow_add]
            ring
/-- Roundtrip of `_convert`: 32 bytes regrouped 8→5 with padding give 52
    words that regroup 5→8 back to the original bytes. -/
theorem convert_8_5_roundtrip (data : List Nat) (hlen : data.length = 32)
    (hb : ∀ d ∈ data, d < 256) :
    ∃ ws, Bech32.convert data 8 5 true = .ok ws ∧ ws.length = 52 ∧
      (∀ w ∈ ws, w < 32) ∧ Bech32.convert ws 5 8 false = .ok data := by
  have hb' : ∀ d ∈ data, d < 2 ^ 8 := by simpa using hb
  obtain ⟨ws, v, b, hcl, hblt, hbound, hcount, hval⟩ :=
    convertLoop_spec 8 5 (by norm_num) (by norm_num) data 0 0 (by norm_num) hb'
  rw [hlen] at hcount hval
  have hb1 : b = 1 := by omega
  have hlen51 : ws.length = 51 := by omega
  subst hb1
  simp only [pow_zero, Nat.mod_one, Nat.zero_mod, Nat.zero_mul, Nat.zero_add, pow_one]
    at hval
  have hw52 : (v <<< (5 - 1)) &&& (2 ^ 5 - 1) = v % 2 * 16 := by
    rw [Nat.shiftLeft_eq, Nat.and_pow_two_sub_one_eq_mod]
    show v * 2 ^ 4 % 2 ^ 5 = v % 2 * 16
    rw [show (2 : Nat) ^ 4 = 16 from rfl, show (2 : Nat) ^ 5 = 2 * 16 from rfl]
    exact Nat.mul_mod_mul_right 16 v 2
  have henc : Bech32.convert data 8 5 true
      = .ok (ws ++ [(v <<< (5 - 1)) &&& (2 ^ 5 - 1)]) := by
    unfold Bech32.convert
    rw [show ((1 <<< 5 : Nat) - 1) = 2 ^ 5 - 1 from rfl]
    simp only [hcl]
    norm_num
  refine ⟨ws ++ [(v <<< (5 - 1)) &&& (2 ^ 5 - 1)], henc, ?_, ?_, ?_⟩
  · simp [hlen51]
  · intro x hx
    rcases List.mem_append.mp hx with hx | hx
    · have := hbound x hx
      omega
    · rcases List.mem_singleton.mp hx with rfl
      omega
  · have hws52 : ∀ x ∈ ws ++ [(v <<< (5 - 1)) &&& (2 ^ 5 - 1)], x < 2 ^ 5 := by
      intro x hx
      rcases List.mem_append.mp hx with hx | hx
      · exact hbound x hx
      · rcases List.mem_singleton.mp hx with rfl
        omega
    obtain ⟨out, v2, b2, hcl2, hblt2, hbound2, hcount2, hval2⟩ :=
      convertLoop_spec 5 8 (by norm_num) (by norm_num)
        (ws ++ [(v <<< (5 - 1)) &&& (2 ^ 5 - 1)]) 0 0 (by norm_num) hws52
    have hlen52 : (ws ++ [(v <<< (5 - 1)) &&& (2 ^ 5 - 1)]).length = 52 := by
      simp [hlen51]
    rw [hlen52] at hcount2 hval2
    have hb24 : b2 = 4 := by omega
    have hlenout : out.length = 32 := by omega
    subst hb24
    simp only [pow_zero, Nat.mod_one, Nat.zero_mod, Nat.zero_mul, Nat.zero_add] at hval2
    have h1 : listVal (2 ^ 5) [(v <<< (5 - 1)) &&& (2 ^ 5 - 1)]
        = (v <<< (5 - 1)) &&& (2 ^ 5 - 1) := by simp [listVal]
    have hvws : listVal (2 ^ 5) (ws ++ [(v <<< (5 - 1)) &&& (2 ^ 5 - 1)])
        = 16 * listVal (2 ^ 8) data := by
      rw [listVal_append, h1, hw52, ← hval]
      simp only [List.length_singleton, pow_one]
      ring
    rw [hvws] at hval2
    have hm : v2 % 2 ^ 4 < 2 ^ 4 := Nat.mod_lt _ (by norm_num)
    have hv2mod : v2 % 2 ^ 4 = 0 := by omega
    have houtval : listVal (2 ^ 8) out = listVal (2 ^ 8) data := by omega
    unfold Bech32.convert
    rw [show ((1 <<< 8 : Nat) - 1) = 2 ^ 8 - 1 from rfl]
    simp only [hcl2]
    rw [if_neg (by norm_num : ¬ (4 : Nat) ≥ 5)]
    have hzero : (v2 <<< (8 - 4)) &&& (2 ^ 8 - 1) = 0 := by
      rw [Nat.shiftLeft_eq, Nat.and_pow_two_sub_one_eq_mod]
      show v2 * 2 ^ 4 % 2 ^ 8 = 0
      rw [show (2 : Nat) ^ 4 = 16 from rfl, show (2 : Nat) ^ 8 = 16 * 16 from rfl,
        Nat.mul_mod_mul_right 16 v2 16]
      have h4 : v2 % 16 = 0 := by
        have := hv2mod
        rwa [show (2 : Nat) ^ 4 = 16 from rfl] at this
      rw [h4]
    rw [hzero]
    simp only [ne_eq, not_true_eq_false, if_false, ite_false]
    norm_num
    exact listVal_inj (2 ^ 8) out data hbound2 hb' (by omega) houtval
/-! ## C3 machinery, part B: the BCH checksum -/

theorem shiftRight_xor (x y n : Nat) : (x ^^^ y) >>> n = (x >>> n) ^^^ (y >>> n) := by
  apply Nat.eq_of_testBit_eq
  intro i
  simp [Nat.testBit_shiftRight, Nat.testBit_xor]

theorem shiftLeft_xor (x y n : Nat) : (x ^^^ y) <<< n = (x <<< n) ^^^ (y <<< n) := by
  apply Nat.eq_of_testBit_eq
  intro i
  simp only [Nat.testBit_shiftLeft, Nat.testBit_xor]
  by_cases h : n ≤ i <;> simp [h]

theorem xor_left_comm (a b c : Nat) : a ^^^ (b ^^^ c) = b ^^^ (a ^^^ c) := by
  rw [← Nat.xor_assoc, Nat.xor_comm a b, Nat.xor_assoc]

/-- The bit-selected constants of `_polymodStep` are GF(2)-linear in the
    selector. -/
theorem sel_xor (p q C : Nat) :
    (if (p &&& 1) ^^^ (q &&& 1) = 1 then C else 0)
      = (if p &&& 1 = 1 then C else 0) ^^^ (if q &&& 1 = 1 then C else 0) := by
  have hp : p &&& 1 = 0 ∨ p &&& 1 = 1 := by
    have : p &&& 1 ≤ 1 := Nat.and_le_right
    omega
  have hq : q &&& 1 = 0 ∨ q &&& 1 = 1 := by
    have : q &&& 1 ≤ 1 := Nat.and_le_right
    omega
  rcases hp with hp | hp <;> rcases hq with hq | hq <;> simp [hp, hq]

theorem xor_xor_xor (a b c d : Nat) :
    (a ^^^ b) ^^^ (c ^^^ d) = (a ^^^ c) ^^^ (b ^^^ d) := by
  simp only [Nat.xor_assoc]
  rw [xor_left_comm b c d]

theorem xor_shuffle6 (a b c d e f a' b' c' d' e' f' : Nat) :
    ((((a ^^^ a') ^^^ (b ^^^ b')) ^^^ (c ^^^ c')) ^^^ (d ^^^ d')) ^^^ (e ^^^ e')
        ^^^ (f ^^^ f')
      = (((((a ^^^ b) ^^^ c) ^^^ d) ^^^ e) ^^^ f)
        ^^^ (((((a' ^^^ b') ^^^ c') ^^^ d') ^^^ e') ^^^ f') := by
  rw [xor_xor_xor a a' b b', xor_xor_xor (a ^^^ b) (a' ^^^ b') c c',
    xor_xor_xor ((a ^^^ b) ^^^ c) ((a' ^^^ b') ^^^ c') d d',
    xor_xor_xor (((a ^^^ b) ^^^ c) ^^^ d) (((a' ^^^ b') ^^^ c') ^^^ d') e e',
    xor_xor_xor ((((a ^^^ b) ^^^ c) ^^^ d) ^^^ e) ((((a' ^^^ b') ^^^ c') ^^^ d') ^^^ e') f f']

/-- `_polymodStep` is GF(2)-linear. -/
theorem polymodStep_xor (x y : Nat) :
    Bech32.polymodStep (x ^^^ y) = Bech32.polymodStep x ^^^ Bech32.polymodStep y := by
  unfold Bech32.polymodStep
  simp only [shiftRight_xor, Nat.and_xor_distrib_right, shiftLeft_xor, sel_xor]
  exact xor_shuffle6 _ _ _ _ _ _ _ _ _ _ _ _

/-- `_polymodStep` stays below `2^30`. -/
theorem polymodStep_lt (pre : Nat) : Bech32.polymodStep pre < 2 ^ 30 := by
  unfold Bech32.polymodStep
  have h1 : (pre &&& 0x1FFFFFF) <<< 5 < 2 ^ 30 := by
    rw [Nat.shiftLeft_eq]
    have hle : pre &&& 0x1FFFFFF ≤ 0x1FFFFFF := Nat.and_le_right
    have h32 : (2:Nat) ^ 5 = 32 := by norm_num
    have h30 : (2:Nat) ^ 30 = 1073741824 := by norm_num
    rw [h32, h30]
    omega
  refine Nat.xor_lt_two_pow (Nat.xor_lt_two_pow (Nat.xor_lt_two_pow (Nat.xor_lt_two_pow
    (Nat.xor_lt_two_pow h1 ?_) ?_) ?_) ?_) ?_ <;> split_ifs <;> norm_num

/-- `_polymodStep` on a value below `2^25` is a plain shift. -/
theorem polymodStep_small {x : Nat} (h : x < 2 ^ 25) :
    Bech32.polymodStep x = x <<< 5 := by
  unfold Bech32.polymodStep
  have hb : x >>> 25 = 0 := by
    rw [Nat.shiftRight_eq_div_pow]
    exact Nat.div_eq_of_lt h
  have hx : x &&& 0x1FFFFFF = x := by
    have := Nat.and_pow_two_sub_one_eq_mod x 25
    rw [show ((2:Nat) ^ 25 - 1) = 0x1FFFFFF from rfl] at this
    rw [this]
    exact Nat.mod_eq_of_lt h
  rw [hb, hx]
  norm_num

/-- Base-32 digit decomposition of a 30-bit value, as xor of shifted
    5-bit fields. -/
theorem decomp30 (T : Nat) (h : T < 2 ^ 30) :
    (((T >>> 25) &&& 31) <<< 25) ^^^ ((((T >>> 20) &&& 31) <<< 20) ^^^
      ((((T >>> 15) &&& 31) <<< 15) ^^^ ((((T >>> 10) &&& 31) <<< 10) ^^^
      ((((T >>> 5) &&& 31) <<< 5) ^^^ (T &&& 31))))) = T := by
  apply Nat.eq_of_testBit_eq
  intro i
  simp only [Nat.testBit_xor, Nat.testBit_shiftLeft, Nat.testBit_and,
    Nat.testBit_shiftRight, show (31 : Nat) = 2 ^ 5 - 1 from rfl,
    Nat.testBit_two_pow_sub_one]
  rcases Nat.lt_or_ge i 5 with h1 | h1
  · simp [show ¬(25 ≤ i) by omega, show ¬(20 ≤ i) by omega, show ¬(15 ≤ i) by omega,
      show ¬(10 ≤ i) by omega, show ¬(5 ≤ i) by omega, h1]
  rcases Nat.lt_or_ge i 10 with h2 | h2
  · simp [show ¬(25 ≤ i) by omega, show ¬(20 ≤ i) by omega, show ¬(15 ≤ i) by omega,
      show ¬(10 ≤ i) by omega, h1, show 5 + (i - 5) = i by omega,
      show i - 5 < 5 by omega, show ¬(i < 5) by omega]
  rcases Nat.lt_or_ge i 15 with h3 | h3
  · simp [show ¬(25 ≤ i) by omega, show ¬(20 ≤ i) by omega, show ¬(15 ≤ i) by omega,
      show (10:Nat) ≤ i by omega, h1, show 10 + (i - 10) = i by omega,
      show i - 10 < 5 by omega, show ¬(i - 5 < 5) by omega, show ¬(i < 5) by omega]
  rcases Nat.lt_or_ge i 20 with h4 | h4
  · simp [show ¬(25 ≤ i) by omega, show ¬(20 ≤ i) by omega, show (15:Nat) ≤ i by omega,
      show (10:Nat) ≤ i by omega, h1, show 15 + (i - 15) = i by omega,
      show i - 15 < 5 by omega, show ¬(i - 10 < 5) by omega,
      show ¬(i - 5 < 5) by omega, show ¬(i < 5) by omega]
  rcases Nat.lt_or_ge i 25 with h5 | h5
  · simp [show ¬(25 ≤ i) by omega, show (20:Nat) ≤ i by omega,
      show (15:Nat) ≤ i by omega, show (10:Nat) ≤ i by omega, h1,
      show 20 + (i - 20) = i by omega, show i - 20 < 5 by omega,
      show ¬(i - 15 < 5) by omega, show ¬(i - 10 < 5) by omega,
      show ¬(i - 5 < 5) by omega, show ¬(i < 5) by omega]
  rcases Nat.lt_or_ge i 30 with h6 | h6
  · simp [show (25:Nat) ≤ i by omega, show (20:Nat) ≤ i by omega,
      show (15:Nat) ≤ i by omega, show (10:Nat) ≤ i by omega, h1,
      show 25 + (i - 25) = i by omega, show i - 25 < 5 by omega,
      show ¬(i - 20 < 5) by omega, show ¬(i - 15 < 5) by omega,
      show ¬(i - 10 < 5) by omega, show ¬(i - 5 < 5) by omega, show ¬(i < 5) by omega]
  · have hT : T < 2 ^ i :=
      lt_of_lt_of_le h (Nat.pow_le_pow_right (by norm_num) (by omega))
    simp [show ¬(i - 25 < 5) by omega, show ¬(i - 20 < 5) by omega,
      show ¬(i - 15 < 5) by omega, show ¬(i - 10 < 5) by omega,
      show ¬(i - 5 < 5) by omega, show ¬(i < 5) by omega,
      Nat.testBit_lt_two_pow hT]
/-! ## C3 machinery, part C: fold characterizations of `_encode`/`_decode` -/

/-- The checksum fold shared by the data loops of `_encode` and `_decode`. -/
def chkFold (init : Nat) (vs : List Nat) : Nat :=
  vs.foldl (fun chk v => Bech32.polymodStep chk ^^^ v) init

/-- The final checksum value sealed by `_encode` after the data fold. -/
def chkSeal (x : Nat) : Nat :=
  Bech32.polymodStep (Bech32.polymodStep (Bech32.polymodStep (Bech32.polymodStep
    (Bech32.polymodStep (Bech32.polymodStep x))))) ^^^ 1

/-- The success value of `_prefixChk`. -/
def pfxChkVal (pfx : List Nat) : Nat :=
  pfx.foldl (fun chk v => Bech32.polymodStep chk ^^^ (v &&& 0x1f))
    (Bech32.polymodStep (pfx.foldl
      (fun chk c => Bech32.polymodStep chk ^^^ (c >>> 5)) 1))

theorem chkFold_append (init : Nat) (xs ys : List Nat) :
    chkFold init (xs ++ ys) = chkFold (chkFold init xs) ys := by
  unfold chkFold
  exact List.foldl_append _ _ _ _

/-- The decode map inverts the encode map on the 32 alphabet digits. -/
theorem alpha_rt : ∀ v, v < 32 →
    Bech32.ALPHABET_MAP (Bech32.ALPHABET.getD v 0) = some v := by decide

/-- Alphabet characters are never the separator and never upper-case. -/
theorem alpha_char : ∀ v, v < 32 → Bech32.ALPHABET.getD v 0 ≠ 49 ∧
    ¬(65 ≤ Bech32.ALPHABET.getD v 0 ∧ Bech32.ALPHABET.getD v 0 ≤ 90) := by decide

/-- The decode character loop on alphabet-encoded words: thread the
    checksum over every word and collect all but the last six. -/
theorem decodeLoop_spec (vs : List Nat) : ∀ (len i chk : Nat) (acc : List Nat),
    (∀ v ∈ vs, v < 32) →
    Bech32.decodeLoop len (vs.map fun v => Bech32.ALPHABET.getD v 0) i chk acc
      = .ok (chkFold chk vs, acc ++ vs.take (len - 6 - i)) := by
  induction vs with
  | nil =>
    intro len i chk acc _
    simp [Bech32.decodeLoop, chkFold]
  | cons v rest ih =>
    intro len i chk acc hv
    rw [List.map_cons]
    simp only [Bech32.decodeLoop, alpha_rt v (hv v (by simp))]
    by_cases hc : i + 6 ≥ len
    · rw [if_pos hc, ih len (i + 1) _ acc (fun x hx => hv x (by simp [hx]))]
      have h1 : len - 6 - i = 0 := by omega
      have h2 : len - 6 - (i + 1) = 0 := by omega
      simp [h1, h2, chkFold]
    · rw [if_neg hc, ih len (i + 1) _ (acc ++ [v]) (fun x hx => hv x (by simp [hx]))]
      have hk : len - 6 - i = (len - 6 - (i + 1)) + 1 := by omega
      rw [hk]
      simp [chkFold, List.take_succ_cons]

/-- The encode data fold: thread the checksum and append the encoded
    characters. -/
theorem encodeFold_spec (ws : List Nat) : ∀ (chk : Nat) (acc : List Nat),
    ws.foldl (fun (st : Nat × List Nat) word =>
        (Bech32.polymodStep st.1 ^^^ word, st.2 ++ [Bech32.ALPHABET.getD word 0]))
      (chk, acc)
      = (chkFold chk ws, acc ++ ws.map fun w => Bech32.ALPHABET.getD w 0) := by
  induction ws with
  | nil =>
    intro chk acc
    simp [chkFold]
  | cons w rest ih =>
    intro chk acc
    simp only [List.foldl_cons, List.map_cons]
    rw [ih]
    simp [chkFold]

theorem shl_shl (x a b : Nat) : (x <<< a) <<< b = x <<< (a + b) := by
  simp [Nat.shiftLeft_eq, Nat.mul_assoc, Nat.pow_add]

theorem shl_lt {x n : Nat} (a : Nat) (h : x < 2 ^ n) : x <<< a < 2 ^ (n + a) := by
  rw [Nat.shiftLeft_eq, Nat.pow_add]
  exact (Nat.mul_lt_mul_right (Nat.two_pow_pos a)).mpr h

/-- Stepping a shifted 5-bit word below position 20 is a further shift. -/
theorem step_shl (k : Nat) {x : Nat} (hx : x < 32) (hk : k ≤ 20) :
    Bech32.polymodStep (x <<< k) = x <<< (k + 5) := by
  have h1 : x <<< k < 2 ^ (5 + k) := shl_lt k (by omega)
  have h2 : x <<< k < 2 ^ 25 :=
    lt_of_lt_of_le h1 (Nat.pow_le_pow_right (by norm_num) (by omega))
  rw [polymodStep_small h2, shl_shl]

/-- Unrolled checksum fold over six 5-bit words, by GF(2)-linearity of
    `_polymodStep`. -/
theorem chkFold_six (A c0 c1 c2 c3 c4 c5 : Nat) (h0 : c0 < 32) (h1 : c1 < 32)
    (h2 : c2 < 32) (h3 : c3 < 32) (h4 : c4 < 32) :
    chkFold A [c0, c1, c2, c3, c4, c5]
      = Bech32.polymodStep (Bech32.polymodStep (Bech32.polymodStep (Bech32.polymodStep
          (Bech32.polymodStep (Bech32.polymodStep A)))))
        ^^^ ((c0 <<< 25) ^^^ ((c1 <<< 20) ^^^ ((c2 <<< 15) ^^^ ((c3 <<< 10) ^^^
          ((c4 <<< 5) ^^^ c5))))) := by
  show Bech32.polymodStep (Bech32.polymodStep (Bech32.polymodStep (Bech32.polymodStep
      (Bech32.polymodStep (Bech32.polymodStep A ^^^ c0) ^^^ c1) ^^^ c2) ^^^ c3) ^^^ c4)
      ^^^ c5 = _
  simp only [polymodStep_xor]
  rw [polymodStep_small (show c0 < 2 ^ 25 by omega),
    step_shl 5 h0 (by norm_num), step_shl 10 h0 (by norm_num),
    step_shl 15 h0 (by norm_num), step_shl 20 h0 (by norm_num)]
  rw [polymodStep_small (show c1 < 2 ^ 25 by omega),
    step_shl 5 h1 (by norm_num), step_shl 10 h1 (by norm_num),
    step_shl 15 h1 (by norm_num)]
  rw [polymodStep_small (show c2 < 2 ^ 25 by omega),
    step_shl 5 h2 (by norm_num), step_shl 10 h2 (by norm_num)]
  rw [polymodStep_small (show c3 < 2 ^ 25 by omega), step_shl 5 h3 (by norm_num)]
  rw [polymodStep_small (show c4 < 2 ^ 25 by omega)]
  simp [Nat.xor_assoc]

/-- The decoder's checksum fold over the six sealed checksum words always
    lands on `1`. -/
theorem chkFold_checksum (A : Nat) :
    chkFold A ((List.range 6).map fun i => (chkSeal A >>> ((5 - i) * 5)) &&& 0x1f)
      = 1 := by
  have hr : List.range 6 = [0, 1, 2, 3, 4, 5] := by decide
  rw [hr]
  simp only [List.map_cons, List.map_nil]
  norm_num [Nat.shiftRight_zero]
  have hb : ∀ x : Nat, x &&& 31 < 32 := fun x => Nat.lt_succ_of_le Nat.and_le_right
  rw [chkFold_six _ _ _ _ _ _ _ (hb _) (hb _) (hb _) (hb _) (hb _)]
  have hT : Bech32.polymodStep (Bech32.polymodStep (Bech32.polymodStep
      (Bech32.polymodStep (Bech32.polymodStep (Bech32.polymodStep A))))) < 2 ^ 30 :=
    polymodStep_lt _
  have hC : chkSeal A < 2 ^ 30 := Nat.xor_lt_two_pow hT (by norm_num)
  have hdec := decomp30 (chkSeal A) hC
  rw [hdec]
  unfold chkSeal
  rw [← Nat.xor_assoc, Nat.xor_self, Nat.zero_xor]
/-! ## C3 machinery, part D: string structure of the encoded form -/

/-- `lastIndexOf` finds the separator when the suffix is separator-free. -/
theorem lastIndexOf_sep (pfx rest : List Nat) (hr : ∀ x ∈ rest, x ≠ 49) :
    lastIndexOf (pfx ++ 49 :: rest) 49 = some pfx.length := by
  unfold lastIndexOf
  rw [List.reverse_append, List.reverse_cons, List.append_assoc, List.findIdx?_append]
  have h1 : rest.reverse.findIdx? (· = 49) = none := by
    rw [List.findIdx?_eq_none_iff]
    intro x hx
    simp only [List.mem_reverse] at hx
    simp [hr x hx]
  rw [h1, List.singleton_append, List.findIdx?_cons]
  simp

/-- The drop of everything before and including the separator. -/
theorem drop_sep (pfx rest : List Nat) :
    (pfx ++ 49 :: rest).drop (pfx.length + 1) = rest := by
  have h : pfx ++ 49 :: rest = (pfx ++ [49]) ++ rest := by simp
  rw [h, show pfx.length + 1 = (pfx ++ [49]).length from by simp, List.drop_left]

/-- Strings with no upper-case ASCII letters are `toLowerCase` fixpoints. -/
theorem toLowerCase_fix (s : List Nat) (h : ∀ c ∈ s, ¬(65 ≤ c ∧ c ≤ 90)) :
    toLowerCase s = s := by
  unfold toLowerCase
  induction s with
  | nil => rfl
  | cons c t ih =>
    rw [List.map_cons, if_neg (h c (by simp)), ih (fun x hx => h x (by simp [hx]))]

/-- `_prefixChk` succeeds on printable-ASCII prefixes, with the fold value
    `pfxChkVal`. -/
theorem pfxChk_ok (pfx : List Nat) (h : ∀ c ∈ pfx, 33 ≤ c ∧ c ≤ 126) :
    Bech32.pfxChk pfx = .ok (pfxChkVal pfx) := by
  unfold Bech32.pfxChk pfxChkVal
  have hf : ∀ (l : List Nat) (chk : Nat), (∀ c ∈ l, 33 ≤ c ∧ c ≤ 126) →
      l.foldlM (fun chk c =>
          if c < 33 ∨ c > 126 then Except.error "Invalid prefix"
          else Except.ok (Bech32.polymodStep chk ^^^ (c >>> 5))) chk
        = (.ok (l.foldl (fun chk c => Bech32.polymodStep chk ^^^ (c >>> 5)) chk) :
            Except String Nat) := by
    intro l
    induction l with
    | nil => intro chk _; rfl
    | cons c rest ih =>
      intro chk hc
      have hcc := hc c (by simp)
      rw [List.foldlM_cons, if_neg (by omega)]
      rw [okBind, ih _ (fun x hx => hc x (by simp [hx])), List.foldl_cons]
  rw [hf pfx 1 h, okBind]

/-- A legal version below `2^16` renders to a prefix of lower-case letters
    that maps back to the version. -/
theorem versionToPfx_legal {v : Nat} (hv : v < 65536) (hleg : legalPfxVersion v) :
    ∃ pfx, versionToPfx v = .ok pfx ∧ pfxToVersion pfx = .ok v ∧
      pfx ≠ [] ∧ ∀ c ∈ pfx, 97 ≤ c ∧ c ≤ 122 := by
  rcases hleg with rfl | ⟨hh, hfa, hfb, hfc⟩
  · exact ⟨genesisChars, rfl, rfl, by simp [genesisChars], by decide⟩
  · have hne0 : v ≠ 0 := by omega
    have hbit : ¬(v &&& 32768 = 32768) := by
      rw [and_high_bit]
      omega
    refine ⟨[v / 1024 % 32 + 96, v / 32 % 32 + 96, v % 32 + 96], ?_, ?_, by simp, ?_⟩
    · unfold versionToPfx
      rw [if_neg hne0, if_neg hbit, masked_field10, masked_field5,
        show ∀ x, x &&& 31 = x % 32 from fun x => by
          simpa using Nat.and_pow_two_sub_one_eq_mod x 5]
      rw [if_neg (by omega), if_neg (by omega), if_neg (by omega)]
    · unfold pfxToVersion
      rw [if_neg (by simp [genesisChars]), if_neg (by simp)]
      simp only [List.getD_cons_zero, List.getD_cons_succ]
      rw [if_neg (by omega), if_neg (by omega), if_neg (by omega),
        Nat.shiftLeft_eq, Nat.shiftLeft_eq]
      have hlt : v < 32768 := by omega
      congr 1
      omega
    · intro c hc
      simp only [List.mem_cons, List.not_mem_nil, or_false] at hc
      rcases hc with rfl | rfl | rfl <;> omega

/-- `_encode` output for a lower-case prefix: the prefix, the separator,
    the encoded data words, and the six sealed checksum characters. -/
theorem encodeInner_spec (pfx ws : List Nat)
    (hp : ∀ c ∈ pfx, 97 ≤ c ∧ c ≤ 122) :
    Bech32.encodeInner pfx ws = .ok (pfx ++ 49 ::
      ((ws ++ (List.range 6).map fun i =>
          (chkSeal (chkFold (pfxChkVal pfx) ws) >>> ((5 - i) * 5)) &&& 0x1f).map
        fun w => Bech32.ALPHABET.getD w 0)) := by
  unfold Bech32.encodeInner
  simp only [toLowerCase_fix pfx (by intro c hc; have := hp c hc; omega),
    pfxChk_ok pfx (by intro c hc; have := hp c hc; omega), okBind, encodeFold_spec]
  simp [chkSeal, List.map_map, List.map_append, List.append_assoc, Function.comp]

/-- `_decode` on the exact output shape of `_encode`: recovers the prefix
    and the data words, and the checksum verifies. -/
theorem decodeCore_encode (pfx ws : List Nat)
    (hp : ∀ c ∈ pfx, 97 ≤ c ∧ c ≤ 122) (hp0 : pfx ≠ [])
    (hw : ∀ w ∈ ws, w < 32) :
    Bech32.decodeCore (pfx ++ 49 ::
        ((ws ++ (List.range 6).map fun i =>
          (chkSeal (chkFold (pfxChkVal pfx) ws) >>> ((5 - i) * 5)) &&& 0x1f).map
         fun w => Bech32.ALPHABET.getD w 0))
      = .ok ⟨pfx, ws⟩ := by
  have hwcs : ∀ w ∈ ws ++ (List.range 6).map fun i =>
      (chkSeal (chkFold (pfxChkVal pfx) ws) >>> ((5 - i) * 5)) &&& 0x1f, w < 32 := by
    intro w hwm
    rw [List.mem_append] at hwm
    rcases hwm with hwm | hwm
    · exact hw w hwm
    · rw [List.mem_map] at hwm
      obtain ⟨i, -, rfl⟩ := hwm
      exact Nat.lt_succ_of_le Nat.and_le_right
  unfold Bech32.decodeCore
  rw [lastIndexOf_sep pfx _ (by
    intro x hx
    rw [List.mem_map] at hx
    obtain ⟨w, hwm, rfl⟩ := hx
    exact (alpha_char w (hwcs w hwm)).1)]
  simp only []
  rw [if_neg (by simpa using hp0)]
  rw [List.take_left, drop_sep]
  rw [if_neg (by simp only [List.length_map, List.length_append, List.length_range]; omega)]
  rw [pfxChk_ok pfx (by intro c hc; have := hp c hc; omega)]
  simp only [okBind]
  rw [decodeLoop_spec _ _ _ _ _ hwcs]
  simp only [okBind]
  rw [chkFold_append, chkFold_checksum]
  simp only [List.length_map, List.length_append, List.length_range]
  rw [show ws.length + 6 - 6 - 0 = ws.length from by omega, List.take_left]
  simp
/-! ## C3 machinery, part E: assembly of the full round trip -/

/-- Rebuilding the 34-byte buffer from the version word and the 32 data
    bytes, as `decode` does, restores the original buffer. -/
theorem reconstruct_bytes (b : List Nat) (hb : ByteBuf 34 b) :
    setUint16 (writeBytes (List.replicate 34 0) 2 (b.drop 2)) 0 (getUint16 b 0) = b := by
  obtain ⟨hlen, hmem⟩ := hb
  rcases b with - | ⟨x, b'⟩
  · simp at hlen
  rcases b' with - | ⟨y, t⟩
  · simp at hlen
  have ht : t.length = 32 := by
    simp only [List.length_cons] at hlen
    omega
  have hx : x < 256 := hmem x (by simp)
  have hy : y < 256 := hmem y (by simp)
  unfold writeBytes setUint16 getUint16
  simp only [List.drop_succ_cons, List.drop_zero, List.take_replicate,
    List.drop_replicate, ht]
  norm_num
  simp only [show List.replicate 2 0 = [0, 0] from rfl, List.cons_append,
    List.nil_append, List.append_nil, List.set_cons_zero, List.set_cons_succ,
    List.getD_cons_zero, List.getD_cons_succ, List.cons.injEq]
  exact ⟨by omega, by omega, trivial⟩

/-- Full Bech32 round trip on the byte level: encoding a well-formed
    34-byte buffer with a legal version succeeds, and decoding the
    resulting string restores the buffer. -/
theorem decode_encode (bytes : List Nat) (hb : ByteBuf 34 bytes)
    (hleg : legalPfxVersion (getUint16 bytes 0)) :
    ∃ s, Bech32.encode bytes = .ok s ∧ Bech32.decode s = .ok bytes := by
  have hv16 : getUint16 bytes 0 < 65536 := by
    have h0 := byteBuf_getD hb 0
    have h1 := byteBuf_getD hb (0 + 1)
    unfold getUint16
    omega
  obtain ⟨pfx, hpfx, hback, hne, hchars⟩ := versionToPfx_legal hv16 hleg
  obtain ⟨ws, hconv, hwlen, hwlt, hconvBack⟩ := convert_8_5_roundtrip (bytes.drop 2)
    (by rw [List.length_drop, hb.1]) (fun d hd => hb.2 d (List.mem_of_mem_drop hd))
  have hwcs : ∀ w ∈ ws ++ (List.range 6).map fun i =>
      (chkSeal (chkFold (pfxChkVal pfx) ws) >>> ((5 - i) * 5)) &&& 0x1f, w < 32 := by
    intro w hwm
    rw [List.mem_append] at hwm
    rcases hwm with hwm | hwm
    · exact hwlt w hwm
    · rw [List.mem_map] at hwm
      obtain ⟨i, -, rfl⟩ := hwm
      exact Nat.lt_succ_of_le Nat.and_le_right
  refine ⟨pfx ++ 49 :: ((ws ++ (List.range 6).map fun i =>
      (chkSeal (chkFold (pfxChkVal pfx) ws) >>> ((5 - i) * 5)) &&& 0x1f).map
    fun w => Bech32.ALPHABET.getD w 0), ?_, ?_⟩
  · unfold Bech32.encode
    rw [hpfx]
    simp only [okBind]
    rw [hconv]
    simp only [okBind]
    exact encodeInner_spec pfx ws hchars
  · have hlow : toLowerCase (pfx ++ 49 :: ((ws ++ (List.range 6).map fun i =>
        (chkSeal (chkFold (pfxChkVal pfx) ws) >>> ((5 - i) * 5)) &&& 0x1f).map
          fun w => Bech32.ALPHABET.getD w 0))
        = pfx ++ 49 :: ((ws ++ (List.range 6).map fun i =>
        (chkSeal (chkFold (pfxChkVal pfx) ws) >>> ((5 - i) * 5)) &&& 0x1f).map
          fun w => Bech32.ALPHABET.getD w 0) := by
      apply toLowerCase_fix
      intro c hc
      simp only [List.mem_append, List.mem_cons] at hc
      rcases hc with hc | rfl | hc
      · have := hchars c hc
        omega
      · omega
      · rw [List.mem_map] at hc
        obtain ⟨w, hwm, rfl⟩ := hc
        exact (alpha_char w (hwcs w hwm)).2
    unfold Bech32.decode Bech32.decodeInner
    rw [if_neg (by rw [hlow]; simp)]
    rw [hlow, decodeCore_encode pfx ws hchars hne hwlt]
    simp only [okBind]
    rw [hconvBack]
    simp only [okBind]
    rw [if_neg (by simp [List.length_drop, hb.1])]
    rw [hback]
    simp only [okBind]
    rw [reconstruct_bytes bytes hb]

/-- **C3.** For every 34-byte address buffer whose first two big-endian
    bytes form a legal prefix version (0, or all three 5-bit fields in
    1..26 with the high bit zero), Bech32-encoding the address succeeds
    and decoding the resulting string yields the original 34 bytes;
    equivalently `Address.fromBech32` applied to `addr.bech32` equals
    `addr` byte-for-byte. -/
theorem bech32_roundtrip (a : Address) (hb : ByteBuf 34 a.bytes)
    (hleg : legalPfxVersion (getUint16 a.bytes 0)) :
    ∃ s, Address.bech32 a = .ok s ∧ Bech32.decode s = .ok a.bytes ∧
      Address.fromBech32 s = .ok a := by
  obtain ⟨s, henc, hdec⟩ := decode_encode a.bytes hb hleg
  refine ⟨s, henc, hdec, ?_⟩
  unfold Address.fromBech32 Address.setBech32
  rw [hdec]
  simp only [okBind]
  have hcl : Address.create.bytes.length = 34 := by decide
  unfold writeBytes
  rw [List.drop_eq_nil_of_le (by rw [hcl, hb.1])]
  simp

/-- Witness for C3: the round trip at the `aaa`-version zero-key address. -/
theorem bech32_roundtrip_witness :
    ByteBuf 34 (Address.mk ([4, 33] ++ List.replicate 32 0)).bytes ∧
    legalPfxVersion (getUint16 ([4, 33] ++ List.replicate 32 0) 0) ∧
    ∃ s, Address.bech32 ⟨[4, 33] ++ List.replicate 32 0⟩ = .ok s ∧
      Bech32.decode s = .ok ([4, 33] ++ List.replicate 32 0) ∧
      Address.fromBech32 s = .ok ⟨[4, 33] ++ List.replicate 32 0⟩ :=
  ⟨by decide, by decide,
    bech32_roundtrip ⟨[4, 33] ++ List.replicate 32 0⟩ (by decide) (by decide)⟩

/-! ## C10: case-insensitivity of decoding -/

/-- ASCII upper-casing is idempotent. -/
theorem toUpperCase_toUpperCase (s : List Nat) :
    toUpperCase (toUpperCase s) = toUpperCase s := by
  unfold toUpperCase
  rw [List.map_map]
  apply List.map_congr_left
  intro c _
  simp only [Function.comp_apply]
  by_cases h : 97 ≤ c ∧ c ≤ 122
  · rw [if_pos h, if_neg (by omega)]
  · rw [if_neg h, if_neg h]

/-- Lower-casing after upper-casing agrees with plain lower-casing. -/
theorem toLowerCase_toUpperCase (s : List Nat) :
    toLowerCase (toUpperCase s) = toLowerCase s := by
  unfold toLowerCase toUpperCase
  rw [List.map_map]
  apply List.map_congr_left
  intro c _
  simp only [Function.comp_apply]
  by_cases h : 97 ≤ c ∧ c ≤ 122
  · rw [if_pos h, if_pos (by omega), if_neg (by omega)]
    omega
  · rw [if_neg h]

/-- **C10.** Bech32 decoding is case-insensitive for uniformly cased
    input: every string that decodes successfully still decodes to the
    same 34 bytes after upper-casing, and every string that mixes upper-
    and lower-case letters is rejected with an error. -/
theorem bech32_case_insensitive :
    (∀ s b, Bech32.decode s = .ok b → Bech32.decode (toUpperCase s) = .ok b) ∧
    (∀ s, s ≠ toLowerCase s → s ≠ toUpperCase s →
      ∃ e, Bech32.decode s = .error e) := by
  constructor
  · intro s b h
    unfold Bech32.decode Bech32.decodeInner at h ⊢
    by_cases hmix : s ≠ toLowerCase s ∧ s ≠ toUpperCase s
    · rw [if_pos hmix] at h
      simp at h
    · rw [if_neg hmix] at h
      rw [if_neg (by simp [toUpperCase_toUpperCase])]
      rw [toLowerCase_toUpperCase]
      exact h
  · intro s h1 h2
    unfold Bech32.decode Bech32.decodeInner
    rw [if_pos ⟨h1, h2⟩]
    exact ⟨"Mixed-case string", rfl⟩

/-- Witness for C10: the upper-cased `aaa` test vector decodes to the
    same bytes, and the mixed-case test vector is rejected. -/
theorem bech32_case_insensitive_witness :
    Bech32.decode ([97, 97, 97, 49] ++ List.replicate 52 113 ++
        [52, 56, 99, 57, 106, 106]) = .ok ([4, 33] ++ List.replicate 32 0) ∧
    Bech32.decode (toUpperCase ([97, 97, 97, 49] ++ List.replicate 52 113 ++
        [52, 56, 99, 57, 106, 106])) = .ok ([4, 33] ++ List.replicate 32 0) ∧
    ([65, 97, 49] ++ List.replicate 8 113) ≠
        toLowerCase ([65, 97, 49] ++ List.replicate 8 113) ∧
    ([65, 97, 49] ++ List.replicate 8 113) ≠
        toUpperCase ([65, 97, 49] ++ List.replicate 8 113) ∧
    ∃ e, Bech32.decode ([65, 97, 49] ++ List.replicate 8 113) = .error e :=
  ⟨by decide,
    bech32_case_insensitive.1 _ _ (by decide),
    by decide, by decide,
    bech32_case_insensitive.2 _ (by decide) (by decide)⟩

end Umi
